import Mathlib

/-!
# rngeasy: a shallow embedding of `rngeasy.h`

Machine words (`u32`, `bits32`) are natural numbers below `2 ^ 32`; every operation that can
leave that range in C (`+`, `-`, `*`, `<<`, unary minus) is followed by an explicit reduction
modulo `2 ^ 32`.  Signed words (`s32`) are integers in `[-2 ^ 31, 2 ^ 31)` with two's complement
wraparound.  `float` values are read as exact rationals, and the elementary functions the header
takes from the host (`sinf`, `cosf`, `sqrtf`) are parameters of the samplers that use them.

Loops without a bound (`for (;;)`, `while (true)`, `while (count > next_pow_4)`) are modelled with
a fuel argument: the result is `none` when the fuel runs out, so a loop that never exits is a
function that returns `none` for every amount of fuel.  A modulo by zero (undefined in C) is
`none` as well.
-/

namespace RngEasy

/-! ## Generator state and core functions -/

/-- The generator state `struct RngState { bits32 s0; bits32 s1; }`. -/
structure RngState where
  s0 : Nat
  s1 : Nat
deriving DecidableEq, Repr

/-- Both state words are 32-bit values. -/
def RngState.WF (rng : RngState) : Prop := rng.s0 < 2 ^ 32 ∧ rng.s1 < 2 ^ 32

/-- The all-zero state is the pair `(0, 0)`. -/
def RngState.isZero (rng : RngState) : Prop := rng.s0 = 0 ∧ rng.s1 = 0

instance (rng : RngState) : Decidable rng.WF :=
  inferInstanceAs (Decidable (rng.s0 < 2 ^ 32 ∧ rng.s1 < 2 ^ 32))

instance (rng : RngState) : Decidable rng.isZero :=
  inferInstanceAs (Decidable (rng.s0 = 0 ∧ rng.s1 = 0))

/-- `splitmix32`: the 32-bit finalizer used for seeding and for the shuffle's round function. -/
def splitmix32 (b : Nat) : Nat :=
  let b := (b + 0x9e3779b9) % 2 ^ 32
  let b := b ^^^ (b >>> 15)
  let b := (b * 0x85ebca6b) % 2 ^ 32
  let b := b ^^^ (b >>> 13)
  let b := (b * 0xc2b2ae3d) % 2 ^ 32
  let b := b ^^^ (b >>> 16)
  b

/-- `rngSeed`: `s1` is the hash of the seed and `s0` the hash of `s1`. -/
def rngSeed (seed_bits : Nat) : RngState :=
  let s1 := splitmix32 seed_bits
  let s0 := splitmix32 s1
  { s0 := s0, s1 := s1 }

/-- `rotl`: `(x << k) | (x >> (32 - k))` on 32-bit words. -/
def rotl (x k : Nat) : Nat := ((x <<< k) % 2 ^ 32) ||| (x >>> (32 - k))

/-- `rngAdvance` (xoroshiro64**): the raw output and the next state. -/
def rngAdvance (rng : RngState) : Nat × RngState :=
  let s0 := rng.s0
  let s1 := rng.s1
  let result_starstar := (rotl ((s0 * 0x9E3779BB) % 2 ^ 32) 5 * 5) % 2 ^ 32
  let s1 := s1 ^^^ s0
  (result_starstar,
    { s0 := rotl s0 26 ^^^ s1 ^^^ ((s1 <<< 9) % 2 ^ 32), s1 := rotl s1 13 })

/-- The state reached after `n` calls of `rngAdvance`. -/
def advanceN : Nat → RngState → RngState
  | 0, rng => rng
  | n + 1, rng => advanceN n (rngAdvance rng).2

/-- A generator passed by reference (`RNGSTATE_REF`), together with a ghost counter of the calls
of `rngAdvance` made on it so far.  The counter is not part of the C state; it only records how
often the state was advanced. -/
structure Gen where
  rng : RngState
  advances : Nat
deriving DecidableEq, Repr

/-- A call `rngAdvance(rng)` on a generator passed by reference: the raw word, and the generator
with the advanced state and one more recorded advance. -/
def Gen.next (g : Gen) : Nat × Gen :=
  ((rngAdvance g.rng).1, { rng := (rngAdvance g.rng).2, advances := g.advances + 1 })

/-! ## Integers module -/

/-- Unary minus on a `u32`. -/
def negU32 (x : Nat) : Nat := (2 ^ 32 - x) % 2 ^ 32

/-- Subtraction of two `u32` values. -/
def subU32 (x y : Nat) : Nat := (x + 2 ^ 32 - y) % 2 ^ 32

/-- Addition of two `u32` values. -/
def addU32 (x y : Nat) : Nat := (x + y) % 2 ^ 32

/-- `u32Any`: the raw output of one advance. -/
def u32Any (g : Gen) : Nat × Gen := g.next

/-- The rejection threshold of `u32To`: `-max % max` in `u32` arithmetic (for `max ≠ 0`). -/
def threshold (max : Nat) : Nat := negU32 max % max

/-- The rejection loop `for (;;)` of `u32To`. -/
def u32ToLoop (thr max : Nat) : Nat → Gen → Option (Nat × Gen)
  | 0, _ => none
  | fuel + 1, g =>
    let r := g.next.1
    if r ≥ thr then some (r % max, g.next.2) else u32ToLoop thr max fuel g.next.2

/-- `u32To`: a value in `[0, max)`.  `max = 0` is a modulo by zero. -/
def u32To (fuel : Nat) (g : Gen) (max : Nat) : Option (Nat × Gen) :=
  if max = 0 then none else u32ToLoop (threshold max) max fuel g

/-- `u32In`: `range_min + u32To(rng, range_max - range_min + u32(1))`. -/
def u32In (fuel : Nat) (g : Gen) (range_min range_max : Nat) : Option (Nat × Gen) :=
  (u32To fuel g (addU32 (subU32 range_max range_min) 1)).map
    fun p => (addU32 range_min p.1, p.2)

/-- Reduction of an integer to the `s32` range (two's complement wraparound). -/
def toS32 (x : Int) : Int := (x + 2 ^ 31) % 2 ^ 32 - 2 ^ 31

/-- The cast `u32(x)` of a signed word. -/
def toU32 (x : Int) : Nat := (x % 2 ^ 32).toNat

/-- `s32In`: `range_min + s32(u32To(rng, u32(range_max - range_min + 1)))`. -/
def s32In (fuel : Nat) (g : Gen) (range_min range_max : Int) : Option (Int × Gen) :=
  (u32To fuel g (toU32 (toS32 (toS32 (range_max - range_min) + 1)))).map
    fun p => (toS32 (range_min + toS32 (p.1 : Int)), p.2)

/-! ## Distributions module -/

/-- `dice`: an alias of `u32To`. -/
def dice (fuel : Nat) (g : Gen) (sides : Nat) : Option (Nat × Gen) :=
  u32To fuel g sides

/-- `oneIn`: `chance != 0 ? dice(rng, chance) == 0 : false`. -/
def oneIn (fuel : Nat) (g : Gen) (chance : Nat) : Option (Bool × Gen) :=
  if chance ≠ 0 then (dice fuel g chance).map fun p => (p.1 == 0, p.2) else some (false, g)

/-! ## Floats module -/

/-- The constant `FLOAT32_MANT_DIG`. -/
def FLOAT32_MANT_DIG : Nat := 24

/-- The constant `PI`, as the exact value of its decimal literal. -/
def PI : ℚ := 314159265358979323846 / 100000000000000000000

/-- The constant `TAU`. -/
def TAU : ℚ := PI * 2

/-- `sign` (GLSL compatibility version). -/
def sign (x : ℚ) : ℚ := if x > 0 then 1 else if x < 0 then -1 else 0

/-- `unitFromBits`: the top 24 bits divided by `2 ^ 24 - 1`. -/
def unitFromBits (bits : Nat) : ℚ :=
  ((bits >>> (32 - FLOAT32_MANT_DIG) : Nat) : ℚ) / (((1 <<< FLOAT32_MANT_DIG) - 1 : Nat) : ℚ)

/-- `eunitFromBits`: the top 24 bits times `1 / 2 ^ 24`. -/
def eunitFromBits (bits : Nat) : ℚ :=
  ((bits >>> (32 - FLOAT32_MANT_DIG) : Nat) : ℚ) * (1 / ((1 <<< FLOAT32_MANT_DIG : Nat) : ℚ))

/-- `floatUnit`. -/
def floatUnit (g : Gen) : ℚ × Gen := (unitFromBits g.next.1, g.next.2)

/-- `floatEUnit`. -/
def floatEUnit (g : Gen) : ℚ × Gen := (eunitFromBits g.next.1, g.next.2)

/-- `floatSnit`. -/
def floatSnit (g : Gen) : ℚ × Gen :=
  let b := g.next.1
  (unitFromBits b * sign (if b &&& 0x8000000 ≠ 0 then 1 else -1), g.next.2)

/-- `floatESnit`. -/
def floatESnit (g : Gen) : ℚ × Gen :=
  let b := g.next.1
  (eunitFromBits b * sign (if b &&& 0x8000000 ≠ 0 then 1 else -1), g.next.2)

/-- `floatIn`: `range_min + (range_max - range_min) * floatUnit(rng)`. -/
def floatIn (g : Gen) (range_min range_max : ℚ) : ℚ × Gen :=
  (range_min + (range_max - range_min) * (floatUnit g).1, (floatUnit g).2)

/-! ## Vectors and quaternions modules -/

/-- The placeholder `vec2`. -/
structure vec2 where
  x : ℚ
  y : ℚ
deriving DecidableEq

/-- The placeholder `vec3`. -/
structure vec3 where
  x : ℚ
  y : ℚ
  z : ℚ
deriving DecidableEq

/-- The placeholder `quat` (component order xyzw). -/
structure quat where
  x : ℚ
  y : ℚ
  z : ℚ
  w : ℚ
deriving DecidableEq

/-- The componentwise product `vec2::operator*`. -/
def vec2.mul (a b : vec2) : vec2 := ⟨a.x * b.x, a.y * b.y⟩

/-- The componentwise product `vec3::operator*`. -/
def vec3.mul (a b : vec3) : vec3 := ⟨a.x * b.x, a.y * b.y, a.z * b.z⟩

/-- The constructor `vec2(float _s)`. -/
def vec2.splat (s : ℚ) : vec2 := ⟨s, s⟩

/-- The constructor `vec3(float _s)`. -/
def vec3.splat (s : ℚ) : vec3 := ⟨s, s, s⟩

/-- `dot` on `vec3`. -/
def dot (a b : vec3) : ℚ := a.x * b.x + a.y * b.y + a.z * b.z

/-- The elementary functions supplied by the host: `floatSin`, `floatCos`, `floatSqrt` (the
macros for `sinf`, `cosf`, `sqrtf`) and the plain `sin`, `cos` that the circle samplers call. -/
structure MathOps where
  floatSin : ℚ → ℚ
  floatCos : ℚ → ℚ
  floatSqrt : ℚ → ℚ
  sin : ℚ → ℚ
  cos : ℚ → ℚ

/-- `inversesqrt`: `1.0f / floatSqrt(x)`. -/
def inversesqrt (m : MathOps) (x : ℚ) : ℚ := 1 / m.floatSqrt x

/-- `vec2InUnitCircle`. -/
def vec2InUnitCircle (m : MathOps) (g : Gen) : vec2 × Gen :=
  let a := (floatEUnit g).1 * TAU
  let g := (floatEUnit g).2
  let r := m.floatSqrt (floatUnit g).1
  let g := (floatUnit g).2
  (vec2.mul ⟨m.sin a, m.cos a⟩ (vec2.splat r), g)

/-- `vec2OnUnitCirle`. -/
def vec2OnUnitCirle (m : MathOps) (g : Gen) : vec2 × Gen :=
  let a := (floatEUnit g).1 * TAU
  let g := (floatEUnit g).2
  (⟨m.sin a, m.cos a⟩, g)

/-- `vec3OnUnitSphere`. -/
def vec3OnUnitSphere (m : MathOps) (g : Gen) : vec3 × Gen :=
  let s := (floatUnit g).1 * TAU
  let g := (floatUnit g).2
  let t := (floatUnit g).1 * 2 - 1
  let g := (floatUnit g).2
  (vec3.mul ⟨m.floatSin s, m.floatCos s, t⟩ (vec3.splat (inversesqrt m (1 + t * t))), g)

/-- `vec3OnUnitHemisphere`: `v * sign(dot(v, normal))`. -/
def vec3OnUnitHemisphere (m : MathOps) (g : Gen) (normal : vec3) : vec3 × Gen :=
  let v := (vec3OnUnitSphere m g).1
  let g := (vec3OnUnitSphere m g).2
  (vec3.mul v (vec3.splat (sign (dot v normal))), g)

/-- `quatAny`. -/
def quatAny (m : MathOps) (g : Gen) : quat × Gen :=
  let u1 := (floatUnit g).1
  let g := (floatUnit g).2
  let u2 := (floatUnit g).1
  let g := (floatUnit g).2
  let u3 := (floatUnit g).1
  let g := (floatUnit g).2
  (⟨m.floatSqrt (1 - u1) * m.floatSin (TAU * u2), m.floatSqrt (1 - u1) * m.floatCos (TAU * u2),
    m.floatSqrt u1 * m.floatSin (TAU * u3), m.floatSqrt u1 * m.floatCos (TAU * u3)⟩, g)

/-! ## Storageless shuffle -/

/-- The search loop `while (count > next_pow_4) next_pow_4 *= u32(4);`. -/
def nextPow4Loop (count : Nat) : Nat → Nat → Option Nat
  | 0, _ => none
  | fuel + 1, next_pow_4 =>
    if count > next_pow_4 then nextPow4Loop count fuel ((next_pow_4 * 4) % 2 ^ 32)
    else some next_pow_4

/-- The loop `while (mask != 0) { mask = mask >> 1; num_bits++; }`. -/
def numBitsLoop : Nat → Nat → Nat → Option Nat
  | 0, _, _ => none
  | fuel + 1, mask, num_bits =>
    if mask ≠ 0 then numBitsLoop fuel (mask >>> 1) (num_bits + 1) else some num_bits

/-- One Feistel round on the pair `(left, right)`. -/
def feistelRound (seed right_mask : Nat) (lr : Nat × Nat) : Nat × Nat :=
  let newLeft := lr.2
  let newRight := lr.1 ^^^ (splitmix32 (lr.2 ^^^ seed) &&& right_mask)
  (newLeft, newRight)

/-- One pass of the body of the cycle-walking loop: split the index, do four Feistel rounds,
reassemble. -/
def feistelPass (seed half_num_bits right_mask left_mask idx : Nat) : Nat :=
  let left := (idx &&& left_mask) >>> half_num_bits
  let right := idx &&& right_mask
  let lr := (feistelRound seed right_mask)^[4] (left, right)
  ((lr.1 <<< half_num_bits) % 2 ^ 32) ||| lr.2

/-- The cycle-walking loop `while (true)` of `shuffle`. -/
def shuffleLoop (count seed half_num_bits right_mask left_mask : Nat) : Nat → Nat → Option Nat
  | 0, _ => none
  | fuel + 1, idx =>
    let idx := feistelPass seed half_num_bits right_mask left_mask idx
    if idx < count then some idx
    else shuffleLoop count seed half_num_bits right_mask left_mask fuel idx

/-- `shuffle`: the fuel bounds each of the three loops. -/
def shuffle (fuel : Nat) (idx count seed : Nat) : Option Nat :=
  (nextPow4Loop count fuel 4).bind fun next_pow_4 =>
  (numBitsLoop fuel (subU32 next_pow_4 1) 0).bind fun num_bits =>
    let half_num_bits := num_bits / 2
    let right_mask := subU32 ((1 <<< half_num_bits) % 2 ^ 32) 1
    let left_mask := (right_mask <<< half_num_bits) % 2 ^ 32
    shuffleLoop count seed half_num_bits right_mask left_mask fuel idx

/-! ## Inverse maps

These are not in the header; they are the inverses used to show that `splitmix32` and the
output map of `rngAdvance` are bijections on 32-bit words. -/

/-- The inverse of the step `b ^= b >> s` on 32-bit words, for `3 * s ≥ 32`. -/
def unxorshift (s b : Nat) : Nat := b ^^^ (b >>> s) ^^^ (b >>> (2 * s))

/-- The inverse of `splitmix32` on 32-bit words: it undoes the three xor-shifts, the two
multiplications (by the inverses `0xa89ed915` of `0xc2b2ae3d` and `0xa5cb9243` of `0x85ebca6b`
modulo `2 ^ 32`) and the addition, last step first. -/
def splitmix32Inv (b : Nat) : Nat :=
  let b := unxorshift 16 b
  let b := (b * 0xa89ed915) % 2 ^ 32
  let b := unxorshift 13 b
  let b := (b * 0xa5cb9243) % 2 ^ 32
  let b := unxorshift 15 b
  let b := (b + 0x61c88647) % 2 ^ 32
  b

/-- The inverse of the output map `s0 ↦ rotl(s0 * 0x9E3779BB, 5) * 5` of `rngAdvance` on 32-bit
words (`0xcccccccd` is the inverse of `5` and `0xbe736373` that of `0x9E3779BB` modulo
`2 ^ 32`). -/
def starstarInv (v : Nat) : Nat := (rotl ((v * 0xcccccccd) % 2 ^ 32) 27 * 0xbe736373) % 2 ^ 32

/-! ## Word-level facts -/

theorem or_eq_zero_left {x y : Nat} (h : x ||| y = 0) : x = 0 := by
  apply Nat.eq_of_testBit_eq
  intro i
  have := congrArg (fun n => Nat.testBit n i) h
  simp only [Nat.testBit_or, Nat.zero_testBit, Bool.or_eq_false_iff] at this
  simpa using this.1

theorem or_eq_zero_right {x y : Nat} (h : x ||| y = 0) : y = 0 := by
  apply Nat.eq_of_testBit_eq
  intro i
  have := congrArg (fun n => Nat.testBit n i) h
  simp only [Nat.testBit_or, Nat.zero_testBit, Bool.or_eq_false_iff] at this
  simpa using this.2

theorem rotl_lt (x k : Nat) (hx : x < 2 ^ 32) : rotl x k < 2 ^ 32 := by
  unfold rotl
  apply Nat.or_lt_two_pow
  · exact Nat.mod_lt _ (by norm_num)
  · rw [Nat.shiftRight_eq_div_pow]
    exact lt_of_le_of_lt (Nat.div_le_self _ _) hx

theorem rotl_eq_zero (x k : Nat) (hk : k ≤ 32) (h : rotl x k = 0) : x = 0 := by
  unfold rotl at h
  have h1 := or_eq_zero_left h
  have h2 := or_eq_zero_right h
  rw [Nat.shiftRight_eq_div_pow] at h2
  have hpos : 0 < 2 ^ (32 - k) := Nat.two_pow_pos _
  have hlt : x < 2 ^ (32 - k) := by
    rcases Nat.lt_or_ge x (2 ^ (32 - k)) with h3 | h3
    · exact h3
    · have := Nat.div_pos h3 hpos
      omega
  rw [Nat.shiftLeft_eq] at h1
  have hprod : x * 2 ^ k < 2 ^ 32 := by
    have e : 2 ^ 32 = 2 ^ (32 - k) * 2 ^ k := by
      rw [← Nat.pow_add]; congr 1; omega
    rw [e]
    exact Nat.mul_lt_mul_of_pos_right hlt (Nat.two_pow_pos _)
  rw [Nat.mod_eq_of_lt hprod] at h1
  rcases Nat.mul_eq_zero.mp h1 with h4 | h4
  · exact h4
  · exact absurd h4 (Nat.pos_iff_ne_zero.mp (Nat.two_pow_pos _))

theorem splitmix32_lt (b : Nat) : splitmix32 b < 2 ^ 32 := by
  unfold splitmix32
  have sh : ∀ x n : Nat, x < 2 ^ 32 → x ^^^ (x >>> n) < 2 ^ 32 := by
    intro x n hx
    apply Nat.xor_lt_two_pow hx
    rw [Nat.shiftRight_eq_div_pow]
    exact lt_of_le_of_lt (Nat.div_le_self _ _) hx
  exact sh _ _ (Nat.mod_lt _ (by norm_num))

/-! ## The generator state -/

theorem rngSeed_WF (s : Nat) : (rngSeed s).WF := ⟨splitmix32_lt _, splitmix32_lt _⟩

theorem rngSeed_nonzero (s : Nat) : ¬ (rngSeed s).isZero := by
  rintro ⟨h0, h1⟩
  have h1' : splitmix32 s = 0 := h1
  have h0' : splitmix32 (splitmix32 s) = 0 := h0
  rw [h1'] at h0'
  exact absurd h0' (by decide)

theorem rngAdvance_WF (rng : RngState) (h : rng.WF) : (rngAdvance rng).2.WF := by
  obtain ⟨h0, h1⟩ := h
  have hx : rng.s1 ^^^ rng.s0 < 2 ^ 32 := Nat.xor_lt_two_pow h1 h0
  constructor
  · show rotl rng.s0 26 ^^^ (rng.s1 ^^^ rng.s0) ^^^ ((rng.s1 ^^^ rng.s0) <<< 9 % 2 ^ 32) < 2 ^ 32
    exact Nat.xor_lt_two_pow (Nat.xor_lt_two_pow (rotl_lt _ _ h0) hx) (Nat.mod_lt _ (by norm_num))
  · exact rotl_lt _ _ hx

theorem rngAdvance_nonzero (rng : RngState) (hwf : rng.WF) (hz : ¬ rng.isZero) :
    ¬ (rngAdvance rng).2.isZero := by
  obtain ⟨h0, h1⟩ := hwf
  rintro ⟨z0, z1⟩
  apply hz
  have hx : rng.s1 ^^^ rng.s0 < 2 ^ 32 := Nat.xor_lt_two_pow h1 h0
  have z1' : rotl (rng.s1 ^^^ rng.s0) 13 = 0 := z1
  have e1 : rng.s1 ^^^ rng.s0 = 0 := rotl_eq_zero _ _ (by norm_num) z1'
  have z0' : rotl rng.s0 26 ^^^ (rng.s1 ^^^ rng.s0) ^^^ ((rng.s1 ^^^ rng.s0) <<< 9 % 2 ^ 32) = 0 :=
    z0
  rw [e1] at z0'
  simp only [Nat.xor_zero, Nat.zero_shiftLeft, Nat.zero_mod] at z0'
  have e0 : rng.s0 = 0 := rotl_eq_zero _ _ (by norm_num) z0'
  have e2 : rng.s1 = rng.s0 := Nat.xor_eq_zero.mp e1
  exact ⟨e0, e2.trans e0⟩

theorem advanceN_WF (n : Nat) : ∀ rng : RngState, rng.WF → (advanceN n rng).WF := by
  induction n with
  | zero => intro rng h; exact h
  | succ n ih => intro rng h; exact ih _ (rngAdvance_WF rng h)

theorem advanceN_nonzero (n : Nat) :
    ∀ rng : RngState, rng.WF → ¬ rng.isZero → ¬ (advanceN n rng).isZero := by
  induction n with
  | zero => intro rng _ h; exact h
  | succ n ih =>
    intro rng hwf h
    exact ih _ (rngAdvance_WF rng hwf) (rngAdvance_nonzero rng hwf h)

/-! ## The rejection loop -/

theorem u32ToLoop_lt (thr max : Nat) (hmax : 0 < max) :
    ∀ (fuel : Nat) (g : Gen) (v : Nat) (g' : Gen),
      u32ToLoop thr max fuel g = some (v, g') → v < max := by
  intro fuel
  induction fuel with
  | zero => intro g v g' h; simp [u32ToLoop] at h
  | succ n ih =>
    intro g v g' h
    unfold u32ToLoop at h
    by_cases hr : g.next.1 ≥ thr
    · simp only [hr, if_true, Option.some.injEq, Prod.mk.injEq] at h
      rw [← h.1]
      exact Nat.mod_lt _ hmax
    · simp only [hr, if_false] at h
      exact ih _ _ _ h

/-- A call of the rejection loop that returns has advanced the state `n` times for some
`1 ≤ n ≤ fuel`. -/
theorem u32ToLoop_state (thr max : Nat) :
    ∀ (fuel : Nat) (g : Gen) (v : Nat) (g' : Gen),
      u32ToLoop thr max fuel g = some (v, g') →
        ∃ n, 1 ≤ n ∧ n ≤ fuel ∧ g'.advances = g.advances + n ∧ g'.rng = advanceN n g.rng := by
  intro fuel
  induction fuel with
  | zero => intro g v g' h; simp [u32ToLoop] at h
  | succ k ih =>
    intro g v g' h
    unfold u32ToLoop at h
    by_cases hr : g.next.1 ≥ thr
    · simp only [hr, if_true, Option.some.injEq, Prod.mk.injEq] at h
      refine ⟨1, le_refl _, by omega, ?_, ?_⟩
      · rw [← h.2]; rfl
      · rw [← h.2]; rfl
    · simp only [hr, if_false] at h
      obtain ⟨n, h1, h2, h3, h4⟩ := ih _ _ _ h
      refine ⟨n + 1, by omega, by omega, ?_, ?_⟩
      · rw [h3]; show g.advances + 1 + n = _; omega
      · rw [h4]; rfl

theorem u32To_lt (fuel : Nat) (g : Gen) (max v : Nat) (g' : Gen)
    (h : u32To fuel g max = some (v, g')) : v < max := by
  unfold u32To at h
  by_cases hm : max = 0
  · simp [hm] at h
  · rw [if_neg hm] at h
    exact u32ToLoop_lt _ _ (Nat.pos_of_ne_zero hm) _ _ _ _ h

theorem u32To_state (fuel : Nat) (g : Gen) (max v : Nat) (g' : Gen)
    (h : u32To fuel g max = some (v, g')) :
    ∃ n, 1 ≤ n ∧ n ≤ fuel ∧ g'.advances = g.advances + n ∧ g'.rng = advanceN n g.rng := by
  unfold u32To at h
  by_cases hm : max = 0
  · simp [hm] at h
  · rw [if_neg hm] at h
    exact u32ToLoop_state _ _ _ _ _ _ h

theorem threshold_eq (max : Nat) (h1 : 1 ≤ max) (h2 : max < 2 ^ 32) :
    threshold max = 2 ^ 32 % max := by
  unfold threshold negU32
  have e1 : (2 ^ 32 - max) % 2 ^ 32 = 2 ^ 32 - max := Nat.mod_eq_of_lt (by omega)
  have e2 : 2 ^ 32 % max = ((2 ^ 32 - max) + max) % max := by
    congr 1; omega
  rw [e1, e2, Nat.add_mod_right]

/-- Counting lemma: among the numbers below `N`, those that are at least `N % b` and congruent
to `v` modulo `b` are exactly `N / b` many. -/
theorem card_accepted (N b v : Nat) (hb : 0 < b) (hv : v < b) :
    ((Finset.range N).filter (fun r => r ≥ N % b ∧ r % b = v)).card = N / b := by
  have hN : b * (N / b) + N % b = N := Nat.div_add_mod N b
  have ht : N % b < b := Nat.mod_lt _ hb
  generalize hq : N / b = q at hN
  generalize htt : N % b = t at hN ht
  have key : (Finset.range N).filter (fun r => r ≥ t ∧ r % b = v)
      = (Finset.range q).image (fun j => v + b * (j + if v < t then 1 else 0)) := by
    ext r
    simp only [Finset.mem_filter, Finset.mem_range, Finset.mem_image]
    constructor
    · rintro ⟨hr, hrt, hrv⟩
      have hdm : b * (r / b) + r % b = r := Nat.div_add_mod r b
      rw [hrv] at hdm
      generalize r / b = i at hdm
      by_cases hvt : v < t
      · have hi : 1 ≤ i := by
          rcases Nat.eq_zero_or_pos i with h0 | h0
          · subst h0; omega
          · exact h0
        have hiq : i ≤ q := by
          by_contra hc
          have : b * (q + 1) ≤ b * i := Nat.mul_le_mul_left b (by omega)
          rw [Nat.mul_add] at this
          omega
        refine ⟨i - 1, by omega, ?_⟩
        rw [if_pos hvt, Nat.sub_add_cancel hi]
        omega
      · have hiq : i < q := by
          by_contra hc
          have : b * q ≤ b * i := Nat.mul_le_mul_left b (by omega)
          omega
        refine ⟨i, hiq, ?_⟩
        rw [if_neg hvt]
        simp only [Nat.add_zero]
        omega
    · rintro ⟨j, hj, rfl⟩
      have hmod : (v + b * (j + if v < t then 1 else 0)) % b = v := by
        rw [Nat.add_mul_mod_self_left, Nat.mod_eq_of_lt hv]
      refine ⟨?_, ?_, hmod⟩
      · by_cases hvt : v < t
        · rw [if_pos hvt]
          have : b * (j + 1) ≤ b * q := Nat.mul_le_mul_left b (by omega)
          omega
        · rw [if_neg hvt]
          have : b * (j + 1) ≤ b * q := Nat.mul_le_mul_left b (by omega)
          rw [Nat.mul_add] at this
          simp only [Nat.add_zero]
          omega
      · by_cases hvt : v < t
        · rw [if_pos hvt, Nat.mul_add]
          omega
        · rw [if_neg hvt]
          omega
  rw [key, Finset.card_image_of_injective, Finset.card_range]
  intro j1 j2 h
  simp only at h
  have := Nat.eq_of_mul_eq_mul_left hb (Nat.add_left_cancel h)
  omega

/-! ## Claims on the integer and distribution functions -/

/-- C1: for every generator state and every bound > 0, a call of `u32To` that returns (with
whatever fuel, i.e. at whichever iteration it accepts) returns a value `v` with `0 ≤ v < bound`,
and `dice` returns what `u32To` returns. -/
theorem u32To_range (fuel : Nat) (g : Gen) (bound v : Nat) (g' : Gen) (_hb : 0 < bound)
    (h : u32To fuel g bound = some (v, g')) :
    0 ≤ v ∧ v < bound ∧ dice fuel g bound = u32To fuel g bound :=
  ⟨Nat.zero_le _, u32To_lt fuel g bound v g' h, rfl⟩

theorem u32To_range_witness :
    0 ≤ 3 ∧ 3 < 6 ∧ dice 5 ⟨rngSeed 1, 0⟩ 6 = u32To 5 ⟨rngSeed 1, 0⟩ 6 :=
  u32To_range 5 ⟨rngSeed 1, 0⟩ 6 3 ⟨⟨1515074506, 979179053⟩, 1⟩ (by decide) (by decide)

/-- C2: for every bound with `1 ≤ bound < 2 ^ 32` and every residue `v < bound`, the raw words
`r < 2 ^ 32` that `u32To` accepts (`r ≥ threshold bound`) and maps to `v` (`r % bound = v`) are
exactly `2 ^ 32 / bound` many, and `2 ^ 32 - threshold bound` is a multiple of `bound`; the
rule of `u32To` is: accept the raw word `r` when `r ≥ threshold bound` and return `r % bound`,
else draw again. -/
theorem u32To_unbiased (bound v : Nat) (h1 : 1 ≤ bound) (h2 : bound < 2 ^ 32) (hv : v < bound) :
    ((Finset.range (2 ^ 32)).filter (fun r => r ≥ threshold bound ∧ r % bound = v)).card
        = 2 ^ 32 / bound
      ∧ bound ∣ 2 ^ 32 - threshold bound
      ∧ (∀ fuel g, u32To (fuel + 1) g bound
          = if g.next.1 ≥ threshold bound then some (g.next.1 % bound, g.next.2)
            else u32To fuel g.next.2 bound) := by
  refine ⟨?_, ?_, fun fuel g => ?_⟩
  · rw [threshold_eq bound h1 h2]
    exact card_accepted _ _ _ h1 hv
  · rw [threshold_eq bound h1 h2]
    exact Nat.dvd_sub_mod _
  · have hb : bound ≠ 0 := by omega
    unfold u32To
    rw [if_neg hb, if_neg hb]
    rfl

theorem u32To_unbiased_witness :
    ((Finset.range (2 ^ 32)).filter (fun r => r ≥ threshold 6 ∧ r % 6 = 5)).card = 2 ^ 32 / 6
      ∧ 6 ∣ 2 ^ 32 - threshold 6
      ∧ (∀ fuel g, u32To (fuel + 1) g 6
          = if g.next.1 ≥ threshold 6 then some (g.next.1 % 6, g.next.2)
            else u32To fuel g.next.2 6) :=
  u32To_unbiased 6 5 (by decide) (by decide) (by decide)

/-- C5: for every seed `s` (32-bit or not, `s = 0` included), `rngSeed s` has
`s1 = splitmix32 s` and `s0 = splitmix32 s1`, and `s0` and `s1` are not both zero. -/
theorem rngSeed_not_all_zero (s : Nat) :
    (rngSeed s).s1 = splitmix32 s ∧ (rngSeed s).s0 = splitmix32 (rngSeed s).s1
      ∧ ¬ ((rngSeed s).s0 = 0 ∧ (rngSeed s).s1 = 0) :=
  ⟨rfl, rfl, rngSeed_nonzero s⟩

/-- C6: `rngAdvance` maps a state of two 32-bit words that is not `(0, 0)` to a state that is
not `(0, 0)`; so does any number of advances; every state reached from `rngSeed s` by any number
of advances is not `(0, 0)`; and a call of `u32To` that returns leaves again a state of two
32-bit words that is not `(0, 0)`. -/
theorem rngAdvance_preserves_nonzero (rng : RngState) (hwf : rng.WF) (hz : ¬ rng.isZero) :
    ¬ (rngAdvance rng).2.isZero
      ∧ (∀ n, ¬ (advanceN n rng).isZero)
      ∧ (∀ s n, ¬ (advanceN n (rngSeed s)).isZero)
      ∧ (∀ c fuel bound v g', u32To fuel ⟨rng, c⟩ bound = some (v, g') →
          g'.rng.WF ∧ ¬ g'.rng.isZero) := by
  refine ⟨rngAdvance_nonzero rng hwf hz, fun n => advanceN_nonzero n rng hwf hz,
    fun s n => advanceN_nonzero n _ (rngSeed_WF s) (rngSeed_nonzero s), ?_⟩
  intro c fuel bound v g' h
  obtain ⟨n, -, -, -, hn⟩ := u32To_state _ _ _ _ _ h
  rw [hn]
  exact ⟨advanceN_WF n _ hwf, advanceN_nonzero n _ hwf hz⟩

theorem rngAdvance_preserves_nonzero_witness :
    ¬ (rngAdvance ⟨1, 0⟩).2.isZero
      ∧ (∀ n, ¬ (advanceN n ⟨1, 0⟩).isZero)
      ∧ (∀ s n, ¬ (advanceN n (rngSeed s)).isZero)
      ∧ (∀ c fuel bound v g', u32To fuel ⟨⟨1, 0⟩, c⟩ bound = some (v, g') →
          g'.rng.WF ∧ ¬ g'.rng.isZero) :=
  rngAdvance_preserves_nonzero ⟨1, 0⟩ (by decide) (by decide)

/-- C7: at the full range `lo = 0`, `hi = 2 ^ 32 - 1` the span `hi - lo + 1` wraps to `0`, so
`u32In` calls `u32To` with bound `0`, whose threshold `-0 % 0` is a modulo by zero: no value is
returned, for any state and any amount of fuel. -/
theorem u32In_full_range (fuel : Nat) (g : Gen) :
    addU32 (subU32 (2 ^ 32 - 1) 0) 1 = 0 ∧ u32In fuel g 0 (2 ^ 32 - 1) = none := by
  have e : addU32 (subU32 (2 ^ 32 - 1) 0) 1 = 0 := by decide
  refine ⟨e, ?_⟩
  unfold u32In
  rw [e]
  simp [u32To]

/-- Away from the full range, a call of `u32In` that returns gives `lo + v` for the value `v`
of `u32To` on the span, and the result lies in `[lo, hi]`. -/
theorem u32In_range (fuel : Nat) (g : Gen) (lo hi v : Nat) (g' : Gen) (hlo : lo ≤ hi)
    (hhi : hi < 2 ^ 32) (hspan : hi - lo + 1 < 2 ^ 32)
    (h : u32In fuel g lo hi = some (v, g')) :
    (∃ r, u32To fuel g (hi - lo + 1) = some (r, g') ∧ v = lo + r) ∧ lo ≤ v ∧ v ≤ hi := by
  unfold u32In at h
  have e : addU32 (subU32 hi lo) 1 = hi - lo + 1 := by
    unfold addU32 subU32
    omega
  rw [e] at h
  cases hu : u32To fuel g (hi - lo + 1) with
  | none => rw [hu] at h; simp at h
  | some p =>
    obtain ⟨r, g1⟩ := p
    rw [hu] at h
    simp only [Option.map_some', Option.some.injEq, Prod.mk.injEq] at h
    have hr := u32To_lt _ _ _ _ _ hu
    have ev : addU32 lo r = lo + r := by
      unfold addU32
      omega
    rw [ev] at h
    refine ⟨⟨r, ?_, h.1.symm⟩, by omega, by omega⟩
    rw [h.2]

/-- C9: `oneIn` with `chance = 0` returns `false` for every state (and leaves the state as it
is); with `chance ≠ 0` it returns exactly when `dice` does, and then its value is
`dice(state, chance) == 0` and its state the one `dice` leaves. -/
theorem oneIn_spec (fuel : Nat) (g : Gen) (chance : Nat) :
    oneIn fuel g 0 = some (false, g)
      ∧ (chance ≠ 0 →
          (dice fuel g chance = none → oneIn fuel g chance = none)
          ∧ ∀ v g', dice fuel g chance = some (v, g') →
              oneIn fuel g chance = some (v == 0, g')) := by
  refine ⟨by simp [oneIn], fun hc => ⟨fun hn => ?_, fun v g' hd => ?_⟩⟩
  · simp [oneIn, hc, hn]
  · simp [oneIn, hc, hd]

theorem oneIn_spec_witness :
    oneIn 5 ⟨rngSeed 1, 0⟩ 6 = some ((3 : Nat) == 0, ⟨⟨1515074506, 979179053⟩, 1⟩) :=
  ((oneIn_spec 5 ⟨rngSeed 1, 0⟩ 6).2 (by decide)).2 3 ⟨⟨1515074506, 979179053⟩, 1⟩ (by decide)

/-! ## Number of advances -/

theorem floatUnit_advances (g : Gen) : (floatUnit g).2.advances = g.advances + 1 := rfl

theorem floatEUnit_advances (g : Gen) : (floatEUnit g).2.advances = g.advances + 1 := rfl

/-- C10 (as stated, refuted): `oneIn` with `chance = 0`, an admissible argument, returns `false`
on the seeded generator with advance counter `0` and leaves the counter at `0`: the call makes no
advance. -/
theorem oneIn_zero_makes_no_advance :
    ∃ b g', oneIn 1 ⟨rngSeed 1, 0⟩ 0 = some (b, g') ∧ ¬ (0 + 1 ≤ g'.advances) :=
  ⟨false, ⟨rngSeed 1, 0⟩, by decide, by decide⟩

/-- C10 (amended): every distribution function that takes the generator state makes at least
one advance on it whenever it returns, `oneIn` for `chance ≠ 0` only. -/
theorem distribution_advances (fuel : Nat) (g : Gen) (m : MathOps) :
    g.advances + 1 ≤ (u32Any g).2.advances
      ∧ (∀ max v g', u32To fuel g max = some (v, g') → g.advances + 1 ≤ g'.advances)
      ∧ (∀ lo hi v g', u32In fuel g lo hi = some (v, g') → g.advances + 1 ≤ g'.advances)
      ∧ (∀ lo hi v g', s32In fuel g lo hi = some (v, g') → g.advances + 1 ≤ g'.advances)
      ∧ (∀ sides v g', dice fuel g sides = some (v, g') → g.advances + 1 ≤ g'.advances)
      ∧ (∀ chance b g', chance ≠ 0 → oneIn fuel g chance = some (b, g') →
          g.advances + 1 ≤ g'.advances)
      ∧ g.advances + 1 ≤ (floatUnit g).2.advances
      ∧ g.advances + 1 ≤ (floatEUnit g).2.advances
      ∧ g.advances + 1 ≤ (floatSnit g).2.advances
      ∧ g.advances + 1 ≤ (floatESnit g).2.advances
      ∧ (∀ lo hi, g.advances + 1 ≤ (floatIn g lo hi).2.advances)
      ∧ g.advances + 1 ≤ (vec2InUnitCircle m g).2.advances
      ∧ g.advances + 1 ≤ (vec2OnUnitCirle m g).2.advances
      ∧ g.advances + 1 ≤ (vec3OnUnitSphere m g).2.advances
      ∧ (∀ normal, g.advances + 1 ≤ (vec3OnUnitHemisphere m g normal).2.advances)
      ∧ g.advances + 1 ≤ (quatAny m g).2.advances := by
  have hTo : ∀ max v g', u32To fuel g max = some (v, g') → g.advances + 1 ≤ g'.advances := by
    intro max v g' h
    obtain ⟨n, h1, -, h3, -⟩ := u32To_state _ _ _ _ _ h
    omega
  refine ⟨le_refl _, hTo, ?_, ?_, hTo, ?_, le_refl _, le_refl _, le_refl _, le_refl _,
    fun _ _ => le_refl _, ?_, le_refl _, ?_, fun _ => ?_, ?_⟩
  · intro lo hi v g' h
    unfold u32In at h
    cases hu : u32To fuel g (addU32 (subU32 hi lo) 1) with
    | none => rw [hu] at h; simp at h
    | some p =>
      rw [hu] at h
      simp only [Option.map_some', Option.some.injEq, Prod.mk.injEq] at h
      rw [← h.2]
      exact hTo _ p.1 p.2 hu
  · intro lo hi v g' h
    unfold s32In at h
    cases hu : u32To fuel g (toU32 (toS32 (toS32 (hi - lo) + 1))) with
    | none => rw [hu] at h; simp at h
    | some p =>
      rw [hu] at h
      simp only [Option.map_some', Option.some.injEq, Prod.mk.injEq] at h
      rw [← h.2]
      exact hTo _ p.1 p.2 hu
  · intro chance b g' hc h
    unfold oneIn dice at h
    rw [if_pos hc] at h
    cases hu : u32To fuel g chance with
    | none => rw [hu] at h; simp at h
    | some p =>
      rw [hu] at h
      simp only [Option.map_some', Option.some.injEq, Prod.mk.injEq] at h
      rw [← h.2]
      exact hTo _ p.1 p.2 hu
  · show g.advances + 1 ≤ g.advances + 1 + 1
    omega
  · show g.advances + 1 ≤ g.advances + 1 + 1
    omega
  · show g.advances + 1 ≤ g.advances + 1 + 1
    omega
  · show g.advances + 1 ≤ g.advances + 1 + 1 + 1
    omega

theorem distribution_advances_witness :
    (0 + 1 ≤ (⟨⟨1515074506, 979179053⟩, 1⟩ : Gen).advances)
      ∧ (0 + 1 ≤ (⟨⟨1515074506, 979179053⟩, 1⟩ : Gen).advances) :=
  ⟨(distribution_advances 5 ⟨rngSeed 1, 0⟩ ⟨id, id, id, id, id⟩).2.1 6 3
      ⟨⟨1515074506, 979179053⟩, 1⟩ (by decide),
    (distribution_advances 5 ⟨rngSeed 1, 0⟩ ⟨id, id, id, id, id⟩).2.2.2.2.2.1 6 false
      ⟨⟨1515074506, 979179053⟩, 1⟩ (by decide) (by decide)⟩

/-! ## Cycle walking -/

/-- The cycle-walking loop returns `v` exactly when `v` is the first iterate of the pass, after
the start, that is below `count`, and the fuel covers the number of passes. -/
theorem shuffleLoop_eq_some (count seed h rm lm : Nat) :
    ∀ (fuel idx v : Nat),
      shuffleLoop count seed h rm lm fuel idx = some v ↔
        ∃ m, 1 ≤ m ∧ m ≤ fuel ∧ (feistelPass seed h rm lm)^[m] idx = v ∧ v < count ∧
          ∀ j, 1 ≤ j → j < m → ¬ (feistelPass seed h rm lm)^[j] idx < count := by
  intro fuel
  induction fuel with
  | zero =>
    intro idx v
    simp only [shuffleLoop]
    constructor
    · intro h; cases h
    · rintro ⟨m, h1, h2, -⟩; omega
  | succ n ih =>
    intro idx v
    unfold shuffleLoop
    by_cases hlt : feistelPass seed h rm lm idx < count
    · simp only [hlt, if_true, Option.some.injEq]
      constructor
      · intro hv
        refine ⟨1, le_refl _, by omega, by simpa using hv, by rw [← hv]; exact hlt, ?_⟩
        intro j hj1 hj2; omega
      · rintro ⟨m, h1, -, h3, -, h5⟩
        rcases Nat.eq_or_lt_of_le h1 with h | h
        · subst h; simpa using h3
        · exact absurd (by simpa using hlt) (h5 1 (le_refl _) h)
    · simp only [hlt, if_false]
      rw [ih]
      constructor
      · rintro ⟨m, h1, h2, h3, h4, h5⟩
        refine ⟨m + 1, by omega, by omega, ?_, h4, ?_⟩
        · rw [Function.iterate_succ_apply]; exact h3
        · intro j hj1 hj2
          rcases Nat.eq_or_lt_of_le hj1 with h | h
          · subst h; simpa using hlt
          · obtain ⟨j', rfl⟩ : ∃ j', j = j' + 1 := ⟨j - 1, by omega⟩
            rw [Function.iterate_succ_apply]
            exact h5 j' (by omega) (by omega)
      · rintro ⟨m, h1, h2, h3, h4, h5⟩
        rcases Nat.eq_or_lt_of_le h1 with h | h
        · subst h
          exfalso; apply hlt
          have : feistelPass seed h rm lm idx = v := by simpa using h3
          rw [this]; exact h4
        · obtain ⟨m', rfl⟩ : ∃ m', m = m' + 1 := ⟨m - 1, by omega⟩
          refine ⟨m', by omega, by omega, ?_, h4, ?_⟩
          · rw [← Function.iterate_succ_apply]; exact h3
          · intro j hj1 hj2
            rw [← Function.iterate_succ_apply]
            exact h5 (j + 1) (by omega) (by omega)

/-- Iterates of a map of `[0, N)` into itself stay in `[0, N)`. -/
theorem iterate_lt (F : Nat → Nat) (N : Nat) (hmaps : ∀ x, x < N → F x < N) :
    ∀ n x, x < N → F^[n] x < N := by
  intro n
  induction n with
  | zero => intro x hx; exact hx
  | succ n ih => intro x hx; rw [Function.iterate_succ_apply]; exact ih _ (hmaps x hx)

/-- Iterates of a map that is injective on `[0, N)` and maps it into itself are injective on
`[0, N)`. -/
theorem iterate_inj (F : Nat → Nat) (N : Nat) (hmaps : ∀ x, x < N → F x < N)
    (hinj : ∀ x y, x < N → y < N → F x = F y → x = y) :
    ∀ n x y, x < N → y < N → F^[n] x = F^[n] y → x = y := by
  intro n
  induction n with
  | zero => intro x y _ _ h; exact h
  | succ n ih =>
    intro x y hx hy h
    rw [Function.iterate_succ_apply, Function.iterate_succ_apply] at h
    exact hinj x y hx hy (ih _ _ (hmaps x hx) (hmaps y hy) h)

/-- Every point of `[0, N)` returns to itself under an injective self-map of `[0, N)`, after at
most `N` steps. -/
theorem iterate_returns (F : Nat → Nat) (N : Nat) (hmaps : ∀ x, x < N → F x < N)
    (hinj : ∀ x y, x < N → y < N → F x = F y → x = y) (x : Nat) (hx : x < N) :
    ∃ n, 1 ≤ n ∧ n ≤ N ∧ F^[n] x = x := by
  have key : ∀ a b, a < b → b ≤ N → F^[a] x = F^[b] x → ∃ n, 1 ≤ n ∧ n ≤ N ∧ F^[n] x = x := by
    intro a b hab hb h
    obtain ⟨d, rfl⟩ : ∃ d, b = a + d := ⟨b - a, by omega⟩
    rw [Function.iterate_add_apply] at h
    refine ⟨d, by omega, by omega, ?_⟩
    exact (iterate_inj F N hmaps hinj a _ _ hx (iterate_lt F N hmaps d x hx) h).symm
  have hcard : (Finset.range N).card < (Finset.range (N + 1)).card := by simp
  obtain ⟨a, ha, b, hb, hne, hab⟩ :=
    Finset.exists_ne_map_eq_of_card_lt_of_maps_to hcard
      (fun i _ => Finset.mem_range.mpr (iterate_lt F N hmaps i x hx))
  rw [Finset.mem_range] at ha hb
  rcases Nat.lt_or_gt_of_ne hne with h | h
  · exact key a b h (by omega) hab
  · exact key b a h (by omega) hab.symm

/-- Cycle walking from an index below `count` ends, within `N` passes, when the pass is an
injective self-map of `[0, N)` and `count ≤ N`. -/
theorem shuffleLoop_terminates (count seed h rm lm N : Nat)
    (hmaps : ∀ x, x < N → feistelPass seed h rm lm x < N)
    (hinj : ∀ x y, x < N → y < N → feistelPass seed h rm lm x = feistelPass seed h rm lm y → x = y)
    (hcN : count ≤ N) (fuel : Nat) (hfuel : N ≤ fuel) (idx : Nat) (hidx : idx < count) :
    ∃ v, v < count ∧ shuffleLoop count seed h rm lm fuel idx = some v := by
  obtain ⟨n, hn1, hnN, hn⟩ := iterate_returns _ N hmaps hinj idx (by omega)
  have hex : ∃ m, 1 ≤ m ∧ (feistelPass seed h rm lm)^[m] idx < count :=
    ⟨n, hn1, by rw [hn]; exact hidx⟩
  classical
  obtain ⟨hm1, hmlt⟩ := Nat.find_spec hex
  have hmn : Nat.find hex ≤ n := Nat.find_min' hex ⟨hn1, by rw [hn]; exact hidx⟩
  refine ⟨_, hmlt, ?_⟩
  rw [shuffleLoop_eq_some]
  refine ⟨Nat.find hex, hm1, by omega, rfl, hmlt, ?_⟩
  intro j hj1 hj2 hj3
  exact Nat.find_min hex hj2 ⟨hj1, hj3⟩

/-- Cycle walking sends distinct indices below `count` to distinct values. -/
theorem shuffleLoop_injective (count seed h rm lm N : Nat)
    (hmaps : ∀ x, x < N → feistelPass seed h rm lm x < N)
    (hinj : ∀ x y, x < N → y < N → feistelPass seed h rm lm x = feistelPass seed h rm lm y → x = y)
    (hcN : count ≤ N) (fuel₁ fuel₂ i j v : Nat) (hi : i < count) (hj : j < count)
    (h₁ : shuffleLoop count seed h rm lm fuel₁ i = some v)
    (h₂ : shuffleLoop count seed h rm lm fuel₂ j = some v) : i = j := by
  have key : ∀ a b ma mb, a < count → b < count → 1 ≤ ma → ma ≤ mb →
      (feistelPass seed h rm lm)^[ma] a = (feistelPass seed h rm lm)^[mb] b →
      (∀ k, 1 ≤ k → k < mb → ¬ (feistelPass seed h rm lm)^[k] b < count) → a = b := by
    intro a b ma mb ha hb hma hle heq hmin
    obtain ⟨d, rfl⟩ : ∃ d, mb = ma + d := ⟨mb - ma, by omega⟩
    rw [Function.iterate_add_apply] at heq
    have hab := iterate_inj _ N hmaps hinj ma _ _ (by omega)
      (iterate_lt _ N hmaps d b (by omega)) heq
    rcases Nat.eq_zero_or_pos d with hd | hd
    · subst hd; simpa using hab
    · exact absurd (by rw [← hab]; exact ha) (hmin d hd (by omega))
  rw [shuffleLoop_eq_some] at h₁ h₂
  obtain ⟨m₁, a1, -, a3, -, a5⟩ := h₁
  obtain ⟨m₂, b1, -, b3, -, b5⟩ := h₂
  rcases Nat.le_total m₁ m₂ with hle | hle
  · exact key i j m₁ m₂ hi hj a1 hle (a3.trans b3.symm) b5
  · exact (key j i m₂ m₁ hj hi b1 hle (b3.trans a3.symm) a5).symm

/-! ## The Feistel pass -/

theorem feistelRound_injective (seed rm : Nat) : Function.Injective (feistelRound seed rm) := by
  rintro ⟨l, r⟩ ⟨l', r'⟩ h
  simp only [feistelRound, Prod.mk.injEq] at h
  obtain ⟨hr, hl⟩ := h
  subst hr
  have := congrArg (fun x => x ^^^ (splitmix32 (r ^^^ seed) &&& rm)) hl
  simp only [Nat.xor_cancel_right] at this
  rw [this]

theorem feistelRound_lt (seed rm k : Nat) (hrm : rm < 2 ^ k) (lr : Nat × Nat)
    (h : lr.1 < 2 ^ k ∧ lr.2 < 2 ^ k) :
    (feistelRound seed rm lr).1 < 2 ^ k ∧ (feistelRound seed rm lr).2 < 2 ^ k :=
  ⟨h.2, Nat.xor_lt_two_pow h.1 (Nat.and_lt_two_pow _ hrm)⟩

theorem feistelRounds_lt (seed rm k : Nat) (hrm : rm < 2 ^ k) :
    ∀ (n : Nat) (lr : Nat × Nat), lr.1 < 2 ^ k ∧ lr.2 < 2 ^ k →
      ((feistelRound seed rm)^[n] lr).1 < 2 ^ k ∧ ((feistelRound seed rm)^[n] lr).2 < 2 ^ k := by
  intro n
  induction n with
  | zero => intro lr h; exact h
  | succ n ih =>
    intro lr h
    rw [Function.iterate_succ_apply]
    exact ih _ (feistelRound_lt seed rm k hrm lr h)

/-- The left half of an index below `4 ^ k`. -/
theorem split_left (k idx : Nat) (hidx : idx < 2 ^ (2 * k)) :
    (idx &&& ((2 ^ k - 1) <<< k)) >>> k = idx / 2 ^ k := by
  apply Nat.eq_of_testBit_eq
  intro i
  rw [← Nat.shiftRight_eq_div_pow, Nat.testBit_shiftRight, Nat.testBit_shiftRight,
    Nat.testBit_and, Nat.testBit_shiftLeft, Nat.testBit_two_pow_sub_one]
  by_cases hi : i < k
  · simp [hi]
  · have hlt : idx < 2 ^ (k + i) :=
      lt_of_lt_of_le hidx (Nat.pow_le_pow_right (by norm_num) (by omega))
    rw [Nat.testBit_lt_two_pow hlt]
    simp

/-- Reassembling two halves below `2 ^ k`, for `2 * k ≤ 32`. -/
theorem join_eq (k l r : Nat) (hk : 2 * k ≤ 32) (hl : l < 2 ^ k) (hr : r < 2 ^ k) :
    ((l <<< k) % 2 ^ 32) ||| r = 2 ^ k * l + r := by
  have hlt : l <<< k < 2 ^ 32 := by
    rw [Nat.shiftLeft_eq]
    calc l * 2 ^ k < 2 ^ k * 2 ^ k := Nat.mul_lt_mul_of_pos_right hl (Nat.two_pow_pos _)
      _ = 2 ^ (k + k) := (Nat.pow_add 2 k k).symm
      _ ≤ 2 ^ 32 := Nat.pow_le_pow_right (by norm_num) (by omega)
  rw [Nat.mod_eq_of_lt hlt, Nat.shiftLeft_eq, Nat.mul_comm, Nat.mul_add_lt_is_or hr]

/-- The pass on an index below `4 ^ k`, with the masks of `k` bits. -/
theorem feistelPass_eq (seed k idx : Nat) (hk : 2 * k ≤ 32) (hidx : idx < 2 ^ (2 * k)) :
    feistelPass seed k (2 ^ k - 1) ((2 ^ k - 1) <<< k) idx
      = 2 ^ k * ((feistelRound seed (2 ^ k - 1))^[4] (idx / 2 ^ k, idx % 2 ^ k)).1
        + ((feistelRound seed (2 ^ k - 1))^[4] (idx / 2 ^ k, idx % 2 ^ k)).2 := by
  have hpos : 0 < 2 ^ k := Nat.two_pow_pos k
  have hrm : 2 ^ k - 1 < 2 ^ k := by omega
  have hl : idx / 2 ^ k < 2 ^ k := by
    rw [Nat.div_lt_iff_lt_mul hpos, ← Nat.pow_add, ← Nat.two_mul]
    exact hidx
  have hr : idx % 2 ^ k < 2 ^ k := Nat.mod_lt _ hpos
  have hb := feistelRounds_lt seed (2 ^ k - 1) k hrm 4 (idx / 2 ^ k, idx % 2 ^ k) ⟨hl, hr⟩
  unfold feistelPass
  simp only
  rw [split_left k idx hidx, Nat.and_pow_two_sub_one_eq_mod]
  exact join_eq k _ _ hk hb.1 hb.2

theorem feistelPass_lt (seed k idx : Nat) (hk : 2 * k ≤ 32) (hidx : idx < 2 ^ (2 * k)) :
    feistelPass seed k (2 ^ k - 1) ((2 ^ k - 1) <<< k) idx < 2 ^ (2 * k) := by
  have hpos : 0 < 2 ^ k := Nat.two_pow_pos k
  have hrm : 2 ^ k - 1 < 2 ^ k := by omega
  have hl : idx / 2 ^ k < 2 ^ k := by
    rw [Nat.div_lt_iff_lt_mul hpos, ← Nat.pow_add, ← Nat.two_mul]
    exact hidx
  have hr : idx % 2 ^ k < 2 ^ k := Nat.mod_lt _ hpos
  have hb := feistelRounds_lt seed (2 ^ k - 1) k hrm 4 (idx / 2 ^ k, idx % 2 ^ k) ⟨hl, hr⟩
  rw [feistelPass_eq seed k idx hk hidx]
  have e : 2 ^ (2 * k) = 2 ^ k * 2 ^ k := by rw [Nat.two_mul, Nat.pow_add]
  rw [e]
  generalize ((feistelRound seed (2 ^ k - 1))^[4] (idx / 2 ^ k, idx % 2 ^ k)).1 = L at hb
  generalize ((feistelRound seed (2 ^ k - 1))^[4] (idx / 2 ^ k, idx % 2 ^ k)).2 = R at hb
  have : 2 ^ k * (L + 1) ≤ 2 ^ k * 2 ^ k := Nat.mul_le_mul_left _ hb.1
  rw [Nat.mul_add] at this
  omega

theorem feistelPass_inj (seed k x y : Nat) (hk : 2 * k ≤ 32) (hx : x < 2 ^ (2 * k))
    (hy : y < 2 ^ (2 * k))
    (h : feistelPass seed k (2 ^ k - 1) ((2 ^ k - 1) <<< k) x
      = feistelPass seed k (2 ^ k - 1) ((2 ^ k - 1) <<< k) y) : x = y := by
  have hpos : 0 < 2 ^ k := Nat.two_pow_pos k
  have hrm : 2 ^ k - 1 < 2 ^ k := by omega
  have hdiv : ∀ z, z < 2 ^ (2 * k) → z / 2 ^ k < 2 ^ k := by
    intro z hz
    rw [Nat.div_lt_iff_lt_mul hpos, ← Nat.pow_add, ← Nat.two_mul]
    exact hz
  have hbx := feistelRounds_lt seed (2 ^ k - 1) k hrm 4 (x / 2 ^ k, x % 2 ^ k)
    ⟨hdiv x hx, Nat.mod_lt _ hpos⟩
  have hby := feistelRounds_lt seed (2 ^ k - 1) k hrm 4 (y / 2 ^ k, y % 2 ^ k)
    ⟨hdiv y hy, Nat.mod_lt _ hpos⟩
  rw [feistelPass_eq seed k x hk hx, feistelPass_eq seed k y hk hy] at h
  have h1 : ((feistelRound seed (2 ^ k - 1))^[4] (x / 2 ^ k, x % 2 ^ k)).1
      = ((feistelRound seed (2 ^ k - 1))^[4] (y / 2 ^ k, y % 2 ^ k)).1 := by
    have := congrArg (fun z => z / 2 ^ k) h
    simp only at this
    rw [Nat.mul_add_div hpos, Nat.mul_add_div hpos, Nat.div_eq_of_lt hbx.2,
      Nat.div_eq_of_lt hby.2] at this
    simpa using this
  have h2 : ((feistelRound seed (2 ^ k - 1))^[4] (x / 2 ^ k, x % 2 ^ k)).2
      = ((feistelRound seed (2 ^ k - 1))^[4] (y / 2 ^ k, y % 2 ^ k)).2 := by
    rw [h1] at h
    exact Nat.add_left_cancel h
  have h3 := (feistelRound_injective seed (2 ^ k - 1)).iterate 4 (Prod.ext h1 h2)
  simp only [Prod.mk.injEq] at h3
  rw [← Nat.div_add_mod x (2 ^ k), ← Nat.div_add_mod y (2 ^ k), h3.1, h3.2]

/-! ## The mask pre-calculation -/

theorem four_pow_eq (k : Nat) : 4 ^ k = 2 ^ (2 * k) := by
  rw [Nat.pow_mul]

theorem four_pow_le (k : Nat) (hk : k ≤ 15) : 4 ^ k ≤ 2 ^ 30 := by
  rw [four_pow_eq]
  exact Nat.pow_le_pow_right (by norm_num) (by omega)

/-- The search loop started at `4 ^ j` stops at some `4 ^ k ≥ count` when `count ≤ 2 ^ 30`. -/
theorem nextPow4Loop_spec (count : Nat) (hc : count ≤ 2 ^ 30) :
    ∀ (d j fuel : Nat), j + d = 15 → d < fuel →
      ∃ k, j ≤ k ∧ k ≤ 15 ∧ count ≤ 4 ^ k ∧ nextPow4Loop count fuel (4 ^ j) = some (4 ^ k) := by
  intro d
  induction d with
  | zero =>
    intro j fuel hj hf
    obtain ⟨f, rfl⟩ : ∃ f, fuel = f + 1 := ⟨fuel - 1, by omega⟩
    have hj' : j = 15 := by omega
    subst hj'
    refine ⟨15, le_refl _, le_refl _, by norm_num; omega, ?_⟩
    unfold nextPow4Loop
    rw [if_neg]
    norm_num; omega
  | succ d ih =>
    intro j fuel hj hf
    obtain ⟨f, rfl⟩ : ∃ f, fuel = f + 1 := ⟨fuel - 1, by omega⟩
    unfold nextPow4Loop
    by_cases hgt : count > 4 ^ j
    · rw [if_pos hgt]
      have hle : 4 ^ (j + 1) ≤ 2 ^ 30 := four_pow_le (j + 1) (by omega)
      have e : (4 ^ j * 4) % 2 ^ 32 = 4 ^ (j + 1) := by
        rw [← Nat.pow_succ]
        exact Nat.mod_eq_of_lt (by omega)
      rw [e]
      obtain ⟨k, h1, h2, h3, h4⟩ := ih (j + 1) f (by omega) (by omega)
      exact ⟨k, by omega, h2, h3, h4⟩
    · rw [if_neg hgt]
      exact ⟨j, le_refl _, by omega, by omega, rfl⟩

theorem nextPow4Loop_zero (count : Nat) (hc : 0 < count) :
    ∀ fuel, nextPow4Loop count fuel 0 = none := by
  intro fuel
  induction fuel with
  | zero => rfl
  | succ n ih =>
    unfold nextPow4Loop
    rw [if_pos hc]
    exact ih

/-- For `count > 2 ^ 30` the search loop multiplies `next_pow_4` up to `2 ^ 30`, wraps it to `0`
and never exits. -/
theorem nextPow4Loop_diverges (count : Nat) (hc : 2 ^ 30 < count) :
    ∀ (d j fuel : Nat), j + d = 16 → nextPow4Loop count fuel (4 ^ j % 2 ^ 32) = none := by
  intro d
  induction d with
  | zero =>
    intro j fuel hj
    have hj' : j = 16 := by omega
    subst hj'
    exact nextPow4Loop_zero count (by omega) fuel
  | succ d ih =>
    intro j fuel hj
    cases fuel with
    | zero => rfl
    | succ f =>
      have hle : 4 ^ j ≤ 2 ^ 30 := four_pow_le j (by omega)
      have e : 4 ^ j % 2 ^ 32 = 4 ^ j := Nat.mod_eq_of_lt (by omega)
      unfold nextPow4Loop
      rw [e, if_pos (by omega), ← Nat.pow_succ]
      exact ih (j + 1) f (by omega)

/-- The bit-counting loop on `2 ^ n - 1` counts `n` bits. -/
theorem numBitsLoop_spec :
    ∀ (n fuel nb : Nat), n < fuel → numBitsLoop fuel (2 ^ n - 1) nb = some (nb + n) := by
  intro n
  induction n with
  | zero =>
    intro fuel nb hf
    obtain ⟨f, rfl⟩ : ∃ f, fuel = f + 1 := ⟨fuel - 1, by omega⟩
    simp [numBitsLoop]
  | succ n ih =>
    intro fuel nb hf
    obtain ⟨f, rfl⟩ : ∃ f, fuel = f + 1 := ⟨fuel - 1, by omega⟩
    have hpos : 0 < 2 ^ n := Nat.two_pow_pos n
    have hne : 2 ^ (n + 1) - 1 ≠ 0 := by rw [Nat.pow_succ]; omega
    have hshift : (2 ^ (n + 1) - 1) >>> 1 = 2 ^ n - 1 := by
      rw [Nat.shiftRight_eq_div_pow, Nat.pow_succ]
      omega
    unfold numBitsLoop
    rw [if_pos hne, hshift, ih f (nb + 1) (by omega)]
    congr 1
    omega

/-- With `count ≤ 2 ^ 30` and fuel for the two pre-calculation loops, `shuffle` is the
cycle-walking loop on the masks of `k` bits, for the `k` with `next_pow_4 = 4 ^ k`. -/
theorem shuffle_eq_loop (fuel count seed : Nat) (hc : count ≤ 2 ^ 30) (hf : 31 ≤ fuel) :
    ∃ k, 1 ≤ k ∧ k ≤ 15 ∧ count ≤ 4 ^ k ∧
      ∀ idx, shuffle fuel idx count seed
        = shuffleLoop count seed k (2 ^ k - 1) ((2 ^ k - 1) <<< k) fuel idx := by
  obtain ⟨k, h1, h2, h3, h4⟩ := nextPow4Loop_spec count hc 14 1 fuel (by omega) (by omega)
  refine ⟨k, h1, h2, h3, fun idx => ?_⟩
  have hle : 4 ^ k ≤ 2 ^ 30 := four_pow_le k h2
  have hpos : 0 < 4 ^ k := pow_pos (by norm_num) k
  have hkpos : 0 < 2 ^ k := Nat.two_pow_pos k
  have hk16 : 2 ^ k ≤ 2 ^ 15 := Nat.pow_le_pow_right (by norm_num) h2
  have emask : subU32 (4 ^ k) 1 = 2 ^ (2 * k) - 1 := by
    unfold subU32
    rw [← four_pow_eq]
    omega
  have erm : subU32 ((1 <<< k) % 2 ^ 32) 1 = 2 ^ k - 1 := by
    unfold subU32
    rw [Nat.shiftLeft_eq, Nat.one_mul]
    omega
  have elm : ((2 ^ k - 1) <<< k) % 2 ^ 32 = (2 ^ k - 1) <<< k := by
    apply Nat.mod_eq_of_lt
    rw [Nat.shiftLeft_eq]
    calc (2 ^ k - 1) * 2 ^ k ≤ 2 ^ 15 * 2 ^ 15 := Nat.mul_le_mul (by omega) hk16
      _ < 2 ^ 32 := by norm_num
  unfold shuffle
  rw [pow_one] at h4
  rw [h4, Option.some_bind, emask, numBitsLoop_spec (2 * k) fuel 0 (by omega), Option.some_bind]
  have ehalf : (0 + 2 * k) / 2 = k := by omega
  simp only [ehalf, erm, elm]


/-! ## Fuel -/

theorem nextPow4Loop_mono (count : Nat) :
    ∀ (f₁ f₂ p v : Nat), f₁ ≤ f₂ → nextPow4Loop count f₁ p = some v →
      nextPow4Loop count f₂ p = some v := by
  intro f₁
  induction f₁ with
  | zero => intro f₂ p v _ h; simp [nextPow4Loop] at h
  | succ n ih =>
    intro f₂ p v hle h
    obtain ⟨f, rfl⟩ : ∃ f, f₂ = f + 1 := ⟨f₂ - 1, by omega⟩
    unfold nextPow4Loop at h ⊢
    by_cases hgt : count > p
    · rw [if_pos hgt] at h ⊢
      exact ih f _ v (by omega) h
    · rw [if_neg hgt] at h ⊢
      exact h

theorem numBitsLoop_mono :
    ∀ (f₁ f₂ mask nb v : Nat), f₁ ≤ f₂ → numBitsLoop f₁ mask nb = some v →
      numBitsLoop f₂ mask nb = some v := by
  intro f₁
  induction f₁ with
  | zero => intro f₂ mask nb v _ h; simp [numBitsLoop] at h
  | succ n ih =>
    intro f₂ mask nb v hle h
    obtain ⟨f, rfl⟩ : ∃ f, f₂ = f + 1 := ⟨f₂ - 1, by omega⟩
    unfold numBitsLoop at h ⊢
    by_cases hne : mask ≠ 0
    · rw [if_pos hne] at h ⊢
      exact ih f _ _ v (by omega) h
    · rw [if_neg hne] at h ⊢
      exact h

theorem shuffleLoop_mono (count seed h rm lm : Nat) (f₁ f₂ idx v : Nat) (hle : f₁ ≤ f₂)
    (hs : shuffleLoop count seed h rm lm f₁ idx = some v) :
    shuffleLoop count seed h rm lm f₂ idx = some v := by
  rw [shuffleLoop_eq_some] at hs ⊢
  obtain ⟨m, h1, h2, h3⟩ := hs
  exact ⟨m, h1, by omega, h3⟩

/-- More fuel does not change a result of `shuffle`. -/
theorem shuffle_mono (f₁ f₂ idx count seed v : Nat) (hle : f₁ ≤ f₂)
    (hs : shuffle f₁ idx count seed = some v) : shuffle f₂ idx count seed = some v := by
  unfold shuffle at hs ⊢
  cases hp : nextPow4Loop count f₁ 4 with
  | none => rw [hp] at hs; simp at hs
  | some p =>
    rw [hp, Option.some_bind] at hs
    rw [nextPow4Loop_mono count f₁ f₂ 4 p hle hp, Option.some_bind]
    cases hb : numBitsLoop f₁ (subU32 p 1) 0 with
    | none => rw [hb] at hs; simp at hs
    | some nb =>
      rw [hb, Option.some_bind] at hs
      rw [numBitsLoop_mono f₁ f₂ _ 0 nb hle hb, Option.some_bind]
      exact shuffleLoop_mono _ _ _ _ _ f₁ f₂ idx v hle hs

/-! ## The shuffle -/

/-- C3: for every seed and every count with `1 ≤ count ≤ 2 ^ 30`, with fuel `2 ^ 30` or more
`shuffle` returns for every index below `count`, the value is below `count`, distinct indices
give distinct values, every value below `count` is the value of some index, and no amount of
fuel gives another value. -/
theorem shuffle_permutation (count seed fuel : Nat) (_h1 : 1 ≤ count) (h2 : count ≤ 2 ^ 30)
    (hf : 2 ^ 30 ≤ fuel) :
    (∀ i, i < count → ∃ v, v < count ∧ shuffle fuel i count seed = some v)
      ∧ (∀ i j, i < count → j < count →
          shuffle fuel i count seed = shuffle fuel j count seed → i = j)
      ∧ (∀ v, v < count → ∃ i, i < count ∧ shuffle fuel i count seed = some v)
      ∧ (∀ fuel' i v, shuffle fuel' i count seed = some v → i < count →
          shuffle fuel i count seed = some v) := by
  obtain ⟨k, hk1, hk15, hck, hloop⟩ := shuffle_eq_loop fuel count seed h2 (by omega)
  have hk : 2 * k ≤ 32 := by omega
  have hN : 2 ^ (2 * k) ≤ fuel := by
    rw [← four_pow_eq]
    exact le_trans (four_pow_le k hk15) hf
  have hcN : count ≤ 2 ^ (2 * k) := by rw [← four_pow_eq]; exact hck
  have hmaps : ∀ x, x < 2 ^ (2 * k) →
      feistelPass seed k (2 ^ k - 1) ((2 ^ k - 1) <<< k) x < 2 ^ (2 * k) :=
    fun x hx => feistelPass_lt seed k x hk hx
  have hinj : ∀ x y, x < 2 ^ (2 * k) → y < 2 ^ (2 * k) →
      feistelPass seed k (2 ^ k - 1) ((2 ^ k - 1) <<< k) x
        = feistelPass seed k (2 ^ k - 1) ((2 ^ k - 1) <<< k) y → x = y :=
    fun x y hx hy h => feistelPass_inj seed k x y hk hx hy h
  have hterm : ∀ i, i < count → ∃ v, v < count ∧ shuffle fuel i count seed = some v := by
    intro i hi
    rw [hloop]
    exact shuffleLoop_terminates count seed k _ _ _ hmaps hinj hcN fuel hN i hi
  have hinj' : ∀ i j, i < count → j < count →
      shuffle fuel i count seed = shuffle fuel j count seed → i = j := by
    intro i j hi hj h
    obtain ⟨v, -, hv⟩ := hterm i hi
    have hv' : shuffle fuel j count seed = some v := by rw [← h]; exact hv
    rw [hloop] at hv hv'
    exact shuffleLoop_injective count seed k _ _ _ hmaps hinj hcN fuel fuel i j v hi hj hv hv'
  refine ⟨hterm, hinj', ?_, ?_⟩
  · have hfin : ∀ i : Fin count, ∃ v : Fin count, shuffle fuel i count seed = some v.val := by
      intro i
      obtain ⟨v, hv, h⟩ := hterm i i.2
      exact ⟨⟨v, hv⟩, h⟩
    choose g hg using hfin
    have ginj : Function.Injective g := by
      intro a b hab
      exact Fin.ext (hinj' a b a.2 b.2 (by rw [hg a, hg b, hab]))
    have gsurj : Function.Surjective g := Finite.injective_iff_surjective.mp ginj
    intro v hv
    obtain ⟨i, hi⟩ := gsurj ⟨v, hv⟩
    exact ⟨i, i.2, by rw [hg i, hi]⟩
  · intro fuel' i v h hi
    rcases Nat.le_total fuel' fuel with hle | hle
    · exact shuffle_mono fuel' fuel i count seed v hle h
    · obtain ⟨w, -, hw⟩ := hterm i hi
      have := shuffle_mono fuel fuel' i count seed w hle hw
      rw [h] at this
      rw [hw, this]

theorem shuffle_permutation_witness :
    (∀ i, i < 37 → ∃ v, v < 37 ∧ shuffle (2 ^ 30) i 37 12345 = some v)
      ∧ (∀ i j, i < 37 → j < 37 →
          shuffle (2 ^ 30) i 37 12345 = shuffle (2 ^ 30) j 37 12345 → i = j)
      ∧ (∀ v, v < 37 → ∃ i, i < 37 ∧ shuffle (2 ^ 30) i 37 12345 = some v)
      ∧ (∀ fuel' i v, shuffle fuel' i 37 12345 = some v → i < 37 →
          shuffle (2 ^ 30) i 37 12345 = some v) :=
  shuffle_permutation 37 12345 (2 ^ 30) (by decide) (by decide) (by decide)

/-- C4: with `count = 2 ^ 30 + 1` (or any larger 32-bit count, here also `2 ^ 32 - 1`) the
search loop `while (count > next_pow_4) next_pow_4 *= 4` never exits: `shuffle` returns nothing
for any amount of fuel, any index and any seed. -/
theorem shuffle_large_count_diverges (fuel idx seed : Nat) :
    shuffle fuel idx (2 ^ 30 + 1) seed = none ∧ shuffle fuel idx (2 ^ 32 - 1) seed = none := by
  have h : ∀ count, 2 ^ 30 < count → shuffle fuel idx count seed = none := by
    intro count hc
    unfold shuffle
    have := nextPow4Loop_diverges count hc 15 1 fuel (by omega)
    rw [show 4 ^ 1 % 2 ^ 32 = 4 by norm_num] at this
    rw [this]
    rfl
  exact ⟨h _ (by norm_num), h _ (by norm_num)⟩

/-! ## Floats from raw bits -/

theorem rngAdvance_lt (rng : RngState) : (rngAdvance rng).1 < 2 ^ 32 :=
  Nat.mod_lt _ (by norm_num)

theorem unitFromBits_eq (b : Nat) : unitFromBits b = ((b >>> 8 : Nat) : ℚ) / (2 ^ 24 - 1) := by
  have e : (1 <<< 24 - 1 : Nat) = 16777215 := by decide
  unfold unitFromBits FLOAT32_MANT_DIG
  rw [e]
  norm_num

theorem eunitFromBits_eq (b : Nat) : eunitFromBits b = ((b >>> 8 : Nat) : ℚ) / 2 ^ 24 := by
  have e : (1 <<< 24 : Nat) = 16777216 := by decide
  unfold eunitFromBits FLOAT32_MANT_DIG
  rw [e]
  norm_num
  ring

theorem shiftRight_eight_lt (b : Nat) (hb : b < 2 ^ 32) : b >>> 8 < 2 ^ 24 := by
  rw [Nat.shiftRight_eq_div_pow]
  omega

/-- C11: for every 32-bit raw word `b`, with `n = b >> 8` (so `n ≤ 2 ^ 24 - 1`),
`unitFromBits b = n / (2 ^ 24 - 1)` lies in `[0, 1]` and is `1` exactly when `n = 2 ^ 24 - 1`,
and `eunitFromBits b = n / 2 ^ 24` lies in `[0, 1)`, the quotients being exact rationals;
`floatUnit` and `floatEUnit` apply them to the output of one `rngAdvance`. -/
theorem float_unit_bounds (b : Nat) (hb : b < 2 ^ 32) :
    b >>> 8 ≤ 2 ^ 24 - 1
      ∧ unitFromBits b = ((b >>> 8 : Nat) : ℚ) / (2 ^ 24 - 1)
      ∧ 0 ≤ unitFromBits b ∧ unitFromBits b ≤ 1
      ∧ (unitFromBits b = 1 ↔ b >>> 8 = 2 ^ 24 - 1)
      ∧ eunitFromBits b = ((b >>> 8 : Nat) : ℚ) / 2 ^ 24
      ∧ 0 ≤ eunitFromBits b ∧ eunitFromBits b < 1
      ∧ (∀ g : Gen, floatUnit g = (unitFromBits (rngAdvance g.rng).1,
            ⟨(rngAdvance g.rng).2, g.advances + 1⟩)
          ∧ floatEUnit g = (eunitFromBits (rngAdvance g.rng).1,
            ⟨(rngAdvance g.rng).2, g.advances + 1⟩)) := by
  have hn : b >>> 8 < 2 ^ 24 := shiftRight_eight_lt b hb
  have hq : ((b >>> 8 : Nat) : ℚ) < 2 ^ 24 := by exact_mod_cast hn
  have hq' : ((b >>> 8 : Nat) : ℚ) ≤ 2 ^ 24 - 1 := by
    have : b >>> 8 + 1 ≤ 2 ^ 24 := hn
    have : ((b >>> 8 + 1 : Nat) : ℚ) ≤ 2 ^ 24 := by exact_mod_cast this
    push_cast at this
    linarith
  have h0 : (0 : ℚ) ≤ ((b >>> 8 : Nat) : ℚ) := Nat.cast_nonneg _
  have hd : (0 : ℚ) < 2 ^ 24 - 1 := by norm_num
  refine ⟨by omega, unitFromBits_eq b, ?_, ?_, ?_, eunitFromBits_eq b, ?_, ?_,
    fun g => ⟨rfl, rfl⟩⟩
  · rw [unitFromBits_eq]; exact div_nonneg h0 hd.le
  · rw [unitFromBits_eq, div_le_one hd]; exact hq'
  · rw [unitFromBits_eq, div_eq_one_iff_eq hd.ne']
    constructor
    · intro h
      have : ((b >>> 8 : Nat) : ℚ) = ((2 ^ 24 - 1 : Nat) : ℚ) := by rw [h]; norm_num
      exact_mod_cast this
    · intro h
      rw [h]; norm_num
  · rw [eunitFromBits_eq]; exact div_nonneg h0 (by norm_num)
  · rw [eunitFromBits_eq, div_lt_one (by norm_num)]; exact hq

theorem float_unit_bounds_witness :
    4294967295 >>> 8 ≤ 2 ^ 24 - 1
      ∧ unitFromBits 4294967295 = ((4294967295 >>> 8 : Nat) : ℚ) / (2 ^ 24 - 1)
      ∧ 0 ≤ unitFromBits 4294967295 ∧ unitFromBits 4294967295 ≤ 1
      ∧ (unitFromBits 4294967295 = 1 ↔ 4294967295 >>> 8 = 2 ^ 24 - 1)
      ∧ eunitFromBits 4294967295 = ((4294967295 >>> 8 : Nat) : ℚ) / 2 ^ 24
      ∧ 0 ≤ eunitFromBits 4294967295 ∧ eunitFromBits 4294967295 < 1
      ∧ (∀ g : Gen, floatUnit g = (unitFromBits (rngAdvance g.rng).1,
            ⟨(rngAdvance g.rng).2, g.advances + 1⟩)
          ∧ floatEUnit g = (eunitFromBits (rngAdvance g.rng).1,
            ⟨(rngAdvance g.rng).2, g.advances + 1⟩)) :=
  float_unit_bounds 4294967295 (by decide)


/-! ## More on the rejection loop -/

theorem threshold_lt (bound : Nat) (h1 : 1 ≤ bound) (h2 : bound < 2 ^ 32) :
    threshold bound < bound := by
  rw [threshold_eq bound h1 h2]
  exact Nat.mod_lt _ h1

theorem card_below (N t : Nat) (h : t ≤ N) :
    ((Finset.range N).filter (fun r => ¬ r ≥ t)).card = t := by
  have e : (Finset.range N).filter (fun r => ¬ r ≥ t) = Finset.range t := by
    ext r
    simp only [Finset.mem_filter, Finset.mem_range]
    omega
  rw [e, Finset.card_range]

/-- C16: for every bound with `1 ≤ bound < 2 ^ 32` the threshold of `u32To` is
`2 ^ 32 % bound` and is below `bound`; the raw words that the loop rejects (those failing its
test `r ≥ threshold`) are `threshold` many of the `2 ^ 32`, so fewer than `bound`: fewer than
1024 for `bound ≤ 1024` and fewer than 65536 for `bound ≤ 65536`. -/
theorem u32To_rejected (bound : Nat) (h1 : 1 ≤ bound) (h2 : bound < 2 ^ 32) :
    threshold bound = 2 ^ 32 % bound
      ∧ threshold bound < bound
      ∧ ((Finset.range (2 ^ 32)).filter (fun r => ¬ r ≥ threshold bound)).card = threshold bound
      ∧ ((Finset.range (2 ^ 32)).filter (fun r => ¬ r ≥ threshold bound)).card < bound
      ∧ (bound ≤ 1024 →
          ((Finset.range (2 ^ 32)).filter (fun r => ¬ r ≥ threshold bound)).card < 1024)
      ∧ (bound ≤ 65536 →
          ((Finset.range (2 ^ 32)).filter (fun r => ¬ r ≥ threshold bound)).card < 65536) := by
  have hlt := threshold_lt bound h1 h2
  have hc := card_below (2 ^ 32) (threshold bound) (by omega)
  refine ⟨threshold_eq bound h1 h2, hlt, hc, ?_, ?_, ?_⟩
  · rw [hc]; exact hlt
  · intro h; rw [hc]; omega
  · intro h; rw [hc]; omega

theorem u32To_rejected_witness :
    threshold 1000 = 2 ^ 32 % 1000
      ∧ threshold 1000 < 1000
      ∧ ((Finset.range (2 ^ 32)).filter (fun r => ¬ r ≥ threshold 1000)).card = threshold 1000
      ∧ ((Finset.range (2 ^ 32)).filter (fun r => ¬ r ≥ threshold 1000)).card < 1000
      ∧ (1000 ≤ 1024 →
          ((Finset.range (2 ^ 32)).filter (fun r => ¬ r ≥ threshold 1000)).card < 1024)
      ∧ (1000 ≤ 65536 →
          ((Finset.range (2 ^ 32)).filter (fun r => ¬ r ≥ threshold 1000)).card < 65536) :=
  u32To_rejected 1000 (by decide) (by decide)

theorem rngAdvance_zero : rngAdvance ⟨0, 0⟩ = (0, ⟨0, 0⟩) := by decide

theorem u32ToLoop_zero_state (thr max : Nat) (hthr : 0 < thr) :
    ∀ (fuel c : Nat), u32ToLoop thr max fuel ⟨⟨0, 0⟩, c⟩ = none := by
  intro fuel
  induction fuel with
  | zero => intro c; rfl
  | succ n ih =>
    intro c
    unfold u32ToLoop
    have e1 : (Gen.next ⟨⟨0, 0⟩, c⟩).1 = 0 := by
      show (rngAdvance ⟨0, 0⟩).1 = 0
      rw [rngAdvance_zero]
    have e2 : (Gen.next ⟨⟨0, 0⟩, c⟩).2 = ⟨⟨0, 0⟩, c + 1⟩ := by
      show (⟨(rngAdvance ⟨0, 0⟩).2, c + 1⟩ : Gen) = _
      rw [rngAdvance_zero]
    simp only [e1, e2]
    rw [if_neg (by omega)]
    exact ih (c + 1)

/-- C18: `rngAdvance` on the state `(0, 0)` returns `0` and leaves the state `(0, 0)`; so for
every 32-bit bound `> 0` that does not divide `2 ^ 32` the threshold is positive and `u32To`
started from `(0, 0)` returns nothing, whatever the fuel. -/
theorem zero_state_absorbing (bound : Nat) (h1 : 0 < bound) (h2 : bound < 2 ^ 32)
    (hdvd : ¬ bound ∣ 2 ^ 32) :
    rngAdvance ⟨0, 0⟩ = (0, ⟨0, 0⟩)
      ∧ (∀ n, advanceN n ⟨0, 0⟩ = ⟨0, 0⟩)
      ∧ 0 < threshold bound
      ∧ (∀ fuel c, u32To fuel ⟨⟨0, 0⟩, c⟩ bound = none) := by
  have hthr : 0 < threshold bound := by
    rw [threshold_eq bound h1 h2]
    rcases Nat.eq_zero_or_pos (2 ^ 32 % bound) with h | h
    · exact absurd (Nat.dvd_of_mod_eq_zero h) hdvd
    · exact h
  refine ⟨rngAdvance_zero, ?_, hthr, ?_⟩
  · intro n
    induction n with
    | zero => rfl
    | succ n ih =>
      show advanceN n (rngAdvance ⟨0, 0⟩).2 = _
      rw [rngAdvance_zero]
      exact ih
  · intro fuel c
    unfold u32To
    rw [if_neg (by omega)]
    exact u32ToLoop_zero_state _ _ hthr fuel c

theorem zero_state_absorbing_witness :
    rngAdvance ⟨0, 0⟩ = (0, ⟨0, 0⟩)
      ∧ (∀ n, advanceN n ⟨0, 0⟩ = ⟨0, 0⟩)
      ∧ 0 < threshold 3
      ∧ (∀ fuel c, u32To fuel ⟨⟨0, 0⟩, c⟩ 3 = none) :=
  zero_state_absorbing 3 (by decide) (by decide) (by decide)

/-- C19: for every state and every bound `2 ^ k` with `k ≤ 31` the threshold of `u32To` is `0`,
so the first raw word is accepted: with any fuel `≥ 1` the call returns `raw % 2 ^ k`, which is
the low `k` bits of the raw word, after exactly one `rngAdvance`, and the state left is the
state after that one advance. -/
theorem u32To_pow_two (k fuel : Nat) (g : Gen) (hk : k ≤ 31) (hf : 1 ≤ fuel) :
    threshold (2 ^ k) = 0
      ∧ u32To fuel g (2 ^ k)
          = some ((rngAdvance g.rng).1 % 2 ^ k, ⟨(rngAdvance g.rng).2, g.advances + 1⟩)
      ∧ (rngAdvance g.rng).1 % 2 ^ k = (rngAdvance g.rng).1 &&& (2 ^ k - 1) := by
  have hpos : 0 < 2 ^ k := Nat.two_pow_pos k
  have hlt : 2 ^ k < 2 ^ 32 := Nat.pow_lt_pow_right (by norm_num) (by omega)
  have hthr : threshold (2 ^ k) = 0 := by
    rw [threshold_eq _ hpos hlt]
    exact Nat.mod_eq_zero_of_dvd (Nat.pow_dvd_pow 2 (by omega))
  refine ⟨hthr, ?_, (Nat.and_pow_two_sub_one_eq_mod _ _).symm⟩
  obtain ⟨f, rfl⟩ : ∃ f, fuel = f + 1 := ⟨fuel - 1, by omega⟩
  unfold u32To
  rw [if_neg (by omega), hthr]
  unfold u32ToLoop
  rw [if_pos (Nat.zero_le _)]
  rfl

theorem u32To_pow_two_witness :
    threshold (2 ^ 4) = 0
      ∧ u32To 1 ⟨rngSeed 1, 0⟩ (2 ^ 4)
          = some ((rngAdvance (rngSeed 1)).1 % 2 ^ 4, ⟨(rngAdvance (rngSeed 1)).2, 0 + 1⟩)
      ∧ (rngAdvance (rngSeed 1)).1 % 2 ^ 4 = (rngAdvance (rngSeed 1)).1 &&& (2 ^ 4 - 1) :=
  u32To_pow_two 4 1 ⟨rngSeed 1, 0⟩ (by decide) (by decide)


/-! ## Signed unit floats and the hemisphere -/

theorem sign_one : sign 1 = 1 := by
  unfold sign; norm_num

theorem sign_neg_one : sign (-1) = -1 := by
  unfold sign; norm_num

theorem sign_mask_bit (b : Nat) : (b &&& 0x8000000 ≠ 0) ↔ (b >>> 8).testBit 19 = true := by
  have e : (0x8000000 : Nat) = 2 ^ 27 := by norm_num
  rw [e, Nat.testBit_shiftRight]
  constructor
  · intro h
    by_contra hb
    apply h
    apply Nat.eq_of_testBit_eq
    intro i
    rw [Nat.testBit_and, Nat.testBit_two_pow, Nat.zero_testBit]
    by_cases hi : 27 = i
    · subst hi; simpa using hb
    · simp [hi]
  · intro h h0
    have := congrArg (fun n => Nat.testBit n 27) h0
    simp only [Nat.testBit_and, Nat.testBit_two_pow, Nat.zero_testBit] at this
    simp [h] at this

/-- C20: in `floatSnit` and `floatESnit` the sign factor is chosen by the mask `0x8000000`,
which is bit 27 of the raw word `b` and so bit 19 of the numerator `n = b >> 8`: the factor is
`+1` exactly when bit 19 of `n` is set and `-1` otherwise.  So a factor `+1` has `n ≥ 2 ^ 19`,
a factor `-1` has bit 19 of `n` clear; `n = 2 ^ 24 - 1` comes with `+1` only and `n = 0` with
`-1` only. -/
theorem snit_sign_bit (g : Gen) :
    (floatSnit g).1 = unitFromBits (rngAdvance g.rng).1
        * (if ((rngAdvance g.rng).1 >>> 8).testBit 19 then 1 else -1)
      ∧ (floatESnit g).1 = eunitFromBits (rngAdvance g.rng).1
        * (if ((rngAdvance g.rng).1 >>> 8).testBit 19 then 1 else -1)
      ∧ (∀ b : Nat,
          sign (if b &&& 0x8000000 ≠ 0 then 1 else -1)
            = (if (b >>> 8).testBit 19 then 1 else -1)
          ∧ (sign (if b &&& 0x8000000 ≠ 0 then 1 else -1) = 1 ↔ (b >>> 8).testBit 19 = true)
          ∧ (sign (if b &&& 0x8000000 ≠ 0 then 1 else -1) = -1 ↔ (b >>> 8).testBit 19 = false)
          ∧ (sign (if b &&& 0x8000000 ≠ 0 then 1 else -1) = 1 → 2 ^ 19 ≤ b >>> 8)
          ∧ (b >>> 8 = 2 ^ 24 - 1 → sign (if b &&& 0x8000000 ≠ 0 then 1 else -1) = 1)
          ∧ (b >>> 8 = 0 → sign (if b &&& 0x8000000 ≠ 0 then 1 else -1) = -1)) := by
  have hsf : ∀ b : Nat, sign (if b &&& 0x8000000 ≠ 0 then 1 else -1)
      = (if (b >>> 8).testBit 19 then 1 else -1) := by
    intro b
    by_cases h : (b >>> 8).testBit 19 = true
    · rw [if_pos ((sign_mask_bit b).mpr h), if_pos h, sign_one]
    · rw [if_neg (fun hc => h ((sign_mask_bit b).mp hc)), if_neg h, sign_neg_one]
  refine ⟨?_, ?_, fun b => ?_⟩
  · show unitFromBits (rngAdvance g.rng).1 * sign _ = _
    rw [hsf]
    rfl
  · show eunitFromBits (rngAdvance g.rng).1 * sign _ = _
    rw [hsf]
    rfl
  · rw [hsf]
    refine ⟨rfl, ?_, ?_, ?_, ?_, ?_⟩
    · by_cases h : (b >>> 8).testBit 19 = true
      · simp [h]
      · simp [h]; norm_num
    · by_cases h : (b >>> 8).testBit 19 = true
      · simp [h]; norm_num
      · simp [h]
    · intro h
      by_cases hb : (b >>> 8).testBit 19 = true
      · exact Nat.testBit_implies_ge hb
      · rw [if_neg hb] at h; norm_num at h
    · intro h
      rw [h]
      decide
    · intro h
      rw [h]
      decide


theorem snit_sign_bit_witness : 2 ^ 19 ≤ 4294967295 >>> 8 :=
  ((snit_sign_bit ⟨rngSeed 1, 0⟩).2.2 4294967295).2.2.2.1
    (by rw [if_pos (by decide)]; exact sign_one)


/-! ## The hemisphere -/

/-- What `vec3OnUnitHemisphere` returns, by the sign of the dot product of the sampled sphere
point with the normal: the point itself when it is positive, the negated point when it is
negative, and the zero vector when it is zero. -/
theorem vec3OnUnitHemisphere_cases (m : MathOps) (g : Gen) (normal : vec3) :
    (0 < dot (vec3OnUnitSphere m g).1 normal →
        (vec3OnUnitHemisphere m g normal).1 = (vec3OnUnitSphere m g).1)
      ∧ (dot (vec3OnUnitSphere m g).1 normal < 0 →
        (vec3OnUnitHemisphere m g normal).1
          = ⟨-(vec3OnUnitSphere m g).1.x, -(vec3OnUnitSphere m g).1.y,
              -(vec3OnUnitSphere m g).1.z⟩)
      ∧ (dot (vec3OnUnitSphere m g).1 normal = 0 →
        (vec3OnUnitHemisphere m g normal).1 = ⟨0, 0, 0⟩) := by
  refine ⟨fun h => ?_, fun h => ?_, fun h => ?_⟩
  · show vec3.mul _ (vec3.splat (sign _)) = _
    have hs : sign (dot (vec3OnUnitSphere m g).1 normal) = 1 := by
      unfold sign; rw [if_pos h]
    rw [hs]
    simp [vec3.mul, vec3.splat]
  · show vec3.mul _ (vec3.splat (sign _)) = _
    have hs : sign (dot (vec3OnUnitSphere m g).1 normal) = -1 := by
      unfold sign; rw [if_neg (not_lt.mpr h.le), if_pos h]
    rw [hs]
    simp [vec3.mul, vec3.splat]
  · show vec3.mul _ (vec3.splat (sign _)) = _
    have hs : sign (dot (vec3OnUnitSphere m g).1 normal) = 0 := by
      unfold sign; rw [h]; norm_num
    rw [hs]
    simp [vec3.mul, vec3.splat]

/-- C17: from the state `(0, 1)` the first raw word is `0`, so the angle `s` is `0`; with
sine `0` and cosine `1` there, the sampled sphere point is `v = (0, c, t * c)` with `c = 1`, and
its dot product with the normal `(1, 0, 0)` is `0`, which is not negative.
`vec3OnUnitHemisphere` does not return `v` but `v * sign(0)`, the zero vector. -/
theorem vec3OnUnitHemisphere_zero_dot :
    (floatUnit ⟨⟨0, 1⟩, 0⟩).1 * TAU = 0
      ∧ (vec3OnUnitSphere ⟨fun _ => 0, fun _ => 1, fun _ => 1, id, id⟩ ⟨⟨0, 1⟩, 0⟩).1.y = 1
      ∧ dot (vec3OnUnitSphere ⟨fun _ => 0, fun _ => 1, fun _ => 1, id, id⟩ ⟨⟨0, 1⟩, 0⟩).1
          ⟨1, 0, 0⟩ = 0
      ∧ (vec3OnUnitHemisphere ⟨fun _ => 0, fun _ => 1, fun _ => 1, id, id⟩ ⟨⟨0, 1⟩, 0⟩
          ⟨1, 0, 0⟩).1 = ⟨0, 0, 0⟩
      ∧ (vec3OnUnitHemisphere ⟨fun _ => 0, fun _ => 1, fun _ => 1, id, id⟩ ⟨⟨0, 1⟩, 0⟩
          ⟨1, 0, 0⟩).1
        ≠ (vec3OnUnitSphere ⟨fun _ => 0, fun _ => 1, fun _ => 1, id, id⟩ ⟨⟨0, 1⟩, 0⟩).1 := by
  have hs : (floatUnit ⟨⟨0, 1⟩, 0⟩).1 * TAU = 0 := by
    have h0 : (Gen.next ⟨⟨0, 1⟩, 0⟩).1 = 0 := by decide
    show unitFromBits (Gen.next ⟨⟨0, 1⟩, 0⟩).1 * TAU = 0
    rw [h0, unitFromBits_eq]
    norm_num
  have hy : (vec3OnUnitSphere ⟨fun _ => 0, fun _ => 1, fun _ => 1, id, id⟩
      ⟨⟨0, 1⟩, 0⟩).1.y = 1 := by
    simp [vec3OnUnitSphere, vec3.mul, vec3.splat, inversesqrt]
  have hd : dot (vec3OnUnitSphere ⟨fun _ => 0, fun _ => 1, fun _ => 1, id, id⟩
      ⟨⟨0, 1⟩, 0⟩).1 ⟨1, 0, 0⟩ = 0 := by
    simp [dot, vec3OnUnitSphere, vec3.mul, vec3.splat, inversesqrt]
  have hz := (vec3OnUnitHemisphere_cases ⟨fun _ => 0, fun _ => 1, fun _ => 1, id, id⟩
    ⟨⟨0, 1⟩, 0⟩ ⟨1, 0, 0⟩).2.2 hd
  refine ⟨hs, hy, hd, hz, ?_⟩
  intro h
  rw [hz] at h
  have := congrArg vec3.y h
  rw [hy] at this
  norm_num at this

/-! ## The masks of the shuffle -/

/-- The search loop started at `4 ^ j` stops at the first `4 ^ k`, `k ≥ j`, with
`count ≤ 4 ^ k`. -/
theorem nextPow4Loop_first (count : Nat) (hc : count ≤ 2 ^ 30) :
    ∀ (d j fuel : Nat), j + d = 15 → d < fuel →
      ∃ k, j ≤ k ∧ k ≤ 15 ∧ count ≤ 4 ^ k ∧ (∀ i, j ≤ i → i < k → 4 ^ i < count)
        ∧ nextPow4Loop count fuel (4 ^ j) = some (4 ^ k) := by
  intro d
  induction d with
  | zero =>
    intro j fuel hj hf
    obtain ⟨f, rfl⟩ : ∃ f, fuel = f + 1 := ⟨fuel - 1, by omega⟩
    have hj' : j = 15 := by omega
    subst hj'
    refine ⟨15, le_refl _, le_refl _, by norm_num; omega, fun i h1 h2 => by omega, ?_⟩
    unfold nextPow4Loop
    rw [if_neg]
    norm_num; omega
  | succ d ih =>
    intro j fuel hj hf
    obtain ⟨f, rfl⟩ : ∃ f, fuel = f + 1 := ⟨fuel - 1, by omega⟩
    unfold nextPow4Loop
    by_cases hgt : count > 4 ^ j
    · rw [if_pos hgt]
      have hle : 4 ^ (j + 1) ≤ 2 ^ 30 := four_pow_le (j + 1) (by omega)
      have e : (4 ^ j * 4) % 2 ^ 32 = 4 ^ (j + 1) := by
        rw [← Nat.pow_succ]
        exact Nat.mod_eq_of_lt (by omega)
      rw [e]
      obtain ⟨k, h1, h2, h3, h4, h5⟩ := ih (j + 1) f (by omega) (by omega)
      refine ⟨k, by omega, h2, h3, ?_, h5⟩
      intro i hi1 hi2
      rcases Nat.eq_or_lt_of_le hi1 with h | h
      · subst h; exact hgt
      · exact h4 i h hi2
    · rw [if_neg hgt]
      exact ⟨j, le_refl _, by omega, by omega, fun i h1 h2 => by omega, rfl⟩

theorem size_two_pow_sub_one (n : Nat) : Nat.size (2 ^ n - 1) = n := by
  have hpos : 0 < 2 ^ n := Nat.two_pow_pos n
  apply le_antisymm
  · rw [Nat.size_le]; omega
  · rcases Nat.eq_zero_or_pos n with h | h
    · omega
    · obtain ⟨m, rfl⟩ : ∃ m, n = m + 1 := ⟨n - 1, by omega⟩
      have : m < Nat.size (2 ^ (m + 1) - 1) := by
        rw [Nat.lt_size, Nat.pow_succ]
        have := Nat.two_pow_pos m
        omega
      omega

theorem right_mask_eq (k : Nat) (hk : k ≤ 15) : subU32 ((1 <<< k) % 2 ^ 32) 1 = 2 ^ k - 1 := by
  have hkpos : 0 < 2 ^ k := Nat.two_pow_pos k
  have hk16 : 2 ^ k ≤ 2 ^ 15 := Nat.pow_le_pow_right (by norm_num) hk
  unfold subU32
  rw [Nat.shiftLeft_eq, Nat.one_mul]
  omega

theorem left_mask_eq (k : Nat) (hk : k ≤ 15) :
    ((2 ^ k - 1) <<< k) % 2 ^ 32 = (2 ^ k - 1) <<< k := by
  have hk16 : 2 ^ k ≤ 2 ^ 15 := Nat.pow_le_pow_right (by norm_num) hk
  apply Nat.mod_eq_of_lt
  rw [Nat.shiftLeft_eq]
  calc (2 ^ k - 1) * 2 ^ k ≤ 2 ^ 15 * 2 ^ 15 := Nat.mul_le_mul (by omega) hk16
    _ < 2 ^ 32 := by norm_num

/-- C14 (as stated, refuted): for `count = 4` the search loop exits at once with
`next_pow_4 = 4`, which is not strictly greater than `count`; the masks of `shuffle` are those
of one bit per half (`half_num_bits = 1`, `right_mask = 1`, `left_mask = 2`). -/
theorem nextPow4_not_strictly_greater :
    nextPow4Loop 4 1 4 = some 4 ∧ ¬ (4 < 4)
      ∧ numBitsLoop 3 (subU32 4 1) 0 = some 2
      ∧ shuffle 3 0 4 7 = shuffleLoop 4 7 1 1 2 3 0 := by
  refine ⟨by decide, by decide, by decide, by decide⟩

/-- C14 (amended): for every `count ≥ 1` for which the search loop finishes, `next_pow_4` is
`4 ^ k` for the smallest `k ≥ 1` with `count ≤ 4 ^ k` (the smallest power of 4 that is at least
4 and at least `count`, not strictly greater); `num_bits` is the bit length `2 * k` of
`next_pow_4 - 1`, and `half_num_bits = num_bits / 2 = k`. -/
theorem nextPow4_smallest (count fuel p : Nat) (_h1 : 1 ≤ count)
    (h : nextPow4Loop count fuel 4 = some p) :
    ∃ k, 1 ≤ k ∧ k ≤ 15 ∧ p = 4 ^ k ∧ count ≤ p
      ∧ (∀ j, 1 ≤ j → count ≤ 4 ^ j → p ≤ 4 ^ j)
      ∧ (∀ fuel', 2 * k < fuel' →
          numBitsLoop fuel' (subU32 p 1) 0 = some (Nat.size (p - 1)))
      ∧ Nat.size (p - 1) = 2 * k ∧ Nat.size (p - 1) / 2 = k := by
  have hc : count ≤ 2 ^ 30 := by
    by_contra hgt
    have := nextPow4Loop_diverges count (by omega) 15 1 fuel (by omega)
    rw [show 4 ^ 1 % 2 ^ 32 = 4 by norm_num, h] at this
    cases this
  obtain ⟨k, hk1, hk15, hck, hmin, hres⟩ :=
    nextPow4Loop_first count hc 14 1 (max fuel 15) (by omega) (by omega)
  rw [pow_one] at hres
  have hp : p = 4 ^ k := by
    have := nextPow4Loop_mono count fuel (max fuel 15) 4 p (le_max_left _ _) h
    rw [hres] at this
    exact (Option.some.inj this).symm
  have hle : 4 ^ k ≤ 2 ^ 30 := four_pow_le k hk15
  have hpos : 0 < 4 ^ k := pow_pos (by norm_num) k
  have hsize : Nat.size (p - 1) = 2 * k := by
    rw [hp, four_pow_eq, size_two_pow_sub_one]
  refine ⟨k, hk1, hk15, hp, by rw [hp]; exact hck, ?_, ?_, hsize, by rw [hsize]; omega⟩
  · intro j hj1 hj
    rw [hp]
    rcases Nat.lt_or_ge j k with hlt | hge
    · exact absurd (hmin j hj1 hlt) (by omega)
    · exact Nat.pow_le_pow_right (by norm_num) hge
  · intro fuel' hf
    have emask : subU32 p 1 = 2 ^ (2 * k) - 1 := by
      unfold subU32
      rw [hp, ← four_pow_eq]
      omega
    rw [emask, hsize, numBitsLoop_spec (2 * k) fuel' 0 hf, Nat.zero_add]

theorem nextPow4_smallest_witness :
    ∃ k, 1 ≤ k ∧ k ≤ 15 ∧ 64 = 4 ^ k ∧ 37 ≤ 64
      ∧ (∀ j, 1 ≤ j → 37 ≤ 4 ^ j → 64 ≤ 4 ^ j)
      ∧ (∀ fuel', 2 * k < fuel' →
          numBitsLoop fuel' (subU32 64 1) 0 = some (Nat.size (64 - 1)))
      ∧ Nat.size (64 - 1) = 2 * k ∧ Nat.size (64 - 1) / 2 = k :=
  nextPow4_smallest 37 3 64 (by decide) (by decide)

/-- C15: for every seed and every `k` with `1 ≤ k ≤ 15`, one pass of the loop body of `shuffle`
with `half_num_bits = k` and the masks computed from it maps `[0, 4 ^ k)` into itself, is
injective there, and reaches every value of `[0, 4 ^ k)`. -/
theorem feistelPass_bijection (seed k : Nat) (_hk1 : 1 ≤ k) (hk15 : k ≤ 15) :
    (∀ x, x < 4 ^ k →
        feistelPass seed k (subU32 ((1 <<< k) % 2 ^ 32) 1)
          ((subU32 ((1 <<< k) % 2 ^ 32) 1 <<< k) % 2 ^ 32) x < 4 ^ k)
      ∧ (∀ x y, x < 4 ^ k → y < 4 ^ k →
        feistelPass seed k (subU32 ((1 <<< k) % 2 ^ 32) 1)
          ((subU32 ((1 <<< k) % 2 ^ 32) 1 <<< k) % 2 ^ 32) x
        = feistelPass seed k (subU32 ((1 <<< k) % 2 ^ 32) 1)
          ((subU32 ((1 <<< k) % 2 ^ 32) 1 <<< k) % 2 ^ 32) y → x = y)
      ∧ (∀ v, v < 4 ^ k → ∃ x, x < 4 ^ k ∧
        feistelPass seed k (subU32 ((1 <<< k) % 2 ^ 32) 1)
          ((subU32 ((1 <<< k) % 2 ^ 32) 1 <<< k) % 2 ^ 32) x = v) := by
  rw [right_mask_eq k hk15, left_mask_eq k hk15, four_pow_eq]
  have hk : 2 * k ≤ 32 := by omega
  have hmaps := fun x hx => feistelPass_lt seed k x hk hx
  have hinj := fun x y hx hy h => feistelPass_inj seed k x y hk hx hy h
  refine ⟨hmaps, hinj, ?_⟩
  let f : Fin (2 ^ (2 * k)) → Fin (2 ^ (2 * k)) := fun x => ⟨_, hmaps x.1 x.2⟩
  have finj : Function.Injective f := by
    intro a b hab
    exact Fin.ext (hinj a b a.2 b.2 (congrArg Fin.val hab))
  have fsurj : Function.Surjective f := Finite.injective_iff_surjective.mp finj
  intro v hv
  obtain ⟨x, hx⟩ := fsurj ⟨v, hv⟩
  exact ⟨x, x.2, congrArg Fin.val hx⟩

theorem feistelPass_bijection_witness :
    (∀ x, x < 4 ^ 3 →
        feistelPass 12345 3 (subU32 ((1 <<< 3) % 2 ^ 32) 1)
          ((subU32 ((1 <<< 3) % 2 ^ 32) 1 <<< 3) % 2 ^ 32) x < 4 ^ 3)
      ∧ (∀ x y, x < 4 ^ 3 → y < 4 ^ 3 →
        feistelPass 12345 3 (subU32 ((1 <<< 3) % 2 ^ 32) 1)
          ((subU32 ((1 <<< 3) % 2 ^ 32) 1 <<< 3) % 2 ^ 32) x
        = feistelPass 12345 3 (subU32 ((1 <<< 3) % 2 ^ 32) 1)
          ((subU32 ((1 <<< 3) % 2 ^ 32) 1 <<< 3) % 2 ^ 32) y → x = y)
      ∧ (∀ v, v < 4 ^ 3 → ∃ x, x < 4 ^ 3 ∧
        feistelPass 12345 3 (subU32 ((1 <<< 3) % 2 ^ 32) 1)
          ((subU32 ((1 <<< 3) % 2 ^ 32) 1 <<< 3) % 2 ^ 32) x = v) :=
  feistelPass_bijection 12345 3 (by decide) (by decide)


/-! ## Bijections on 32-bit words -/

theorem mul_inv_u32 (c cinv x : Nat) (h : c * cinv % 2 ^ 32 = 1) (hx : x < 2 ^ 32) :
    ((x * c) % 2 ^ 32 * cinv) % 2 ^ 32 = x := by
  rw [Nat.mod_mul_mod, Nat.mul_assoc, Nat.mul_mod, h, Nat.mul_one, Nat.mod_mod,
    Nat.mod_eq_of_lt hx]

/-- A rotation as arithmetic: the low `32 - k` bits move up by `k`, the high `k` bits move
down. -/
theorem rotl_eq (x k : Nat) (hx : x < 2 ^ 32) (hk : k ≤ 32) :
    rotl x k = (x % 2 ^ (32 - k)) * 2 ^ k + x / 2 ^ (32 - k) := by
  have e : 2 ^ 32 = 2 ^ (32 - k) * 2 ^ k := by
    rw [← Nat.pow_add]; congr 1; omega
  have hlt : x / 2 ^ (32 - k) < 2 ^ k := by
    rw [Nat.div_lt_iff_lt_mul (Nat.two_pow_pos _), Nat.mul_comm, ← e]
    exact hx
  unfold rotl
  rw [Nat.shiftLeft_eq, Nat.shiftRight_eq_div_pow]
  have e2 : x * 2 ^ k % 2 ^ 32 = (x % 2 ^ (32 - k)) * 2 ^ k := by
    rw [e, Nat.mul_mod_mul_right]
  rw [e2, Nat.mul_comm (x % 2 ^ (32 - k)) (2 ^ k), Nat.mul_add_lt_is_or hlt]

theorem rotl_5_27 (x : Nat) (hx : x < 2 ^ 32) : rotl (rotl x 5) 27 = x := by
  have h1 := rotl_eq x 5 hx (by norm_num)
  have h2 := rotl_eq (rotl x 5) 27 (rotl_lt x 5 hx) (by norm_num)
  norm_num at h1 h2
  omega

theorem rotl_27_5 (x : Nat) (hx : x < 2 ^ 32) : rotl (rotl x 27) 5 = x := by
  have h1 := rotl_eq x 27 hx (by norm_num)
  have h2 := rotl_eq (rotl x 27) 5 (rotl_lt x 27 hx) (by norm_num)
  norm_num at h1 h2
  omega

theorem rngAdvance_output (s0 s1 : Nat) :
    (rngAdvance ⟨s0, s1⟩).1 = (rotl ((s0 * 0x9E3779BB) % 2 ^ 32) 5 * 5) % 2 ^ 32 := rfl

theorem starstarInv_lt (v : Nat) : starstarInv v < 2 ^ 32 := Nat.mod_lt _ (by norm_num)

theorem starstarInv_left (s0 s1 : Nat) (h : s0 < 2 ^ 32) :
    starstarInv (rngAdvance ⟨s0, s1⟩).1 = s0 := by
  have hm : (s0 * 0x9E3779BB) % 2 ^ 32 < 2 ^ 32 := Nat.mod_lt _ (by norm_num)
  rw [rngAdvance_output]
  unfold starstarInv
  rw [mul_inv_u32 5 0xcccccccd _ (by decide) (rotl_lt _ 5 hm), rotl_5_27 _ hm,
    mul_inv_u32 0x9E3779BB 0xbe736373 _ (by decide) h]

theorem starstarInv_right (v s1 : Nat) (h : v < 2 ^ 32) :
    (rngAdvance ⟨starstarInv v, s1⟩).1 = v := by
  have hm : (v * 0xcccccccd) % 2 ^ 32 < 2 ^ 32 := Nat.mod_lt _ (by norm_num)
  rw [rngAdvance_output]
  unfold starstarInv
  rw [mul_inv_u32 0xbe736373 0x9E3779BB _ (by decide) (rotl_lt _ 27 hm), rotl_27_5 _ hm,
    mul_inv_u32 0xcccccccd 5 _ (by decide) h]

/-- C12: `u32Any` returns the output of `rngAdvance` unchanged; that output is
`rotl(s0 * 0x9E3779BB, 5) * 5`, a map of `s0` that is injective on 32-bit words and reaches
every 32-bit value: for every 32-bit `v` there is exactly one 32-bit `s0` whose states make
`u32Any` return `v`. -/
theorem u32Any_full_range :
    (∀ g : Gen, u32Any g = ((rngAdvance g.rng).1, ⟨(rngAdvance g.rng).2, g.advances + 1⟩))
      ∧ (∀ s0 s1, (rngAdvance ⟨s0, s1⟩).1
          = (rotl ((s0 * 0x9E3779BB) % 2 ^ 32) 5 * 5) % 2 ^ 32)
      ∧ (∀ a b s1 s1', a < 2 ^ 32 → b < 2 ^ 32 →
          (rngAdvance ⟨a, s1⟩).1 = (rngAdvance ⟨b, s1'⟩).1 → a = b)
      ∧ (∀ v, v < 2 ^ 32 → ∃ s0, s0 < 2 ^ 32
          ∧ (∀ s1 c, (u32Any ⟨⟨s0, s1⟩, c⟩).1 = v)
          ∧ ∀ s0', s0' < 2 ^ 32 → (∀ s1 c, (u32Any ⟨⟨s0', s1⟩, c⟩).1 = v) → s0' = s0) := by
  refine ⟨fun _ => rfl, fun _ _ => rfl, ?_, ?_⟩
  · intro a b s1 s1' ha hb h
    rw [← starstarInv_left a s1 ha, ← starstarInv_left b s1' hb, h]
  · intro v hv
    refine ⟨starstarInv v, starstarInv_lt v, fun s1 c => starstarInv_right v s1 hv, ?_⟩
    intro s0' hs0' h
    have h0 : (rngAdvance ⟨s0', 0⟩).1 = v := h 0 0
    rw [← h0, starstarInv_left s0' 0 hs0']

theorem u32Any_full_range_witness :
    ∃ s0, s0 < 2 ^ 32
      ∧ (∀ s1 c, (u32Any ⟨⟨s0, s1⟩, c⟩).1 = 4294967295)
      ∧ ∀ s0', s0' < 2 ^ 32 → (∀ s1 c, (u32Any ⟨⟨s0', s1⟩, c⟩).1 = 4294967295) → s0' = s0 :=
  u32Any_full_range.2.2.2 4294967295 (by decide)


theorem xorshift_lt (s x : Nat) (hx : x < 2 ^ 32) : x ^^^ (x >>> s) < 2 ^ 32 := by
  apply Nat.xor_lt_two_pow hx
  rw [Nat.shiftRight_eq_div_pow]
  exact lt_of_le_of_lt (Nat.div_le_self _ _) hx

theorem unxorshift_lt (s x : Nat) (hx : x < 2 ^ 32) : unxorshift s x < 2 ^ 32 := by
  have sh : ∀ n, x >>> n < 2 ^ 32 := by
    intro n
    rw [Nat.shiftRight_eq_div_pow]
    exact lt_of_le_of_lt (Nat.div_le_self _ _) hx
  exact Nat.xor_lt_two_pow (Nat.xor_lt_two_pow hx (sh _)) (sh _)

theorem testBit_high (x j : Nat) (hx : x < 2 ^ 32) (hj : 32 ≤ j) : x.testBit j = false :=
  Nat.testBit_lt_two_pow (lt_of_lt_of_le hx (Nat.pow_le_pow_right (by norm_num) hj))

/-- Undoing `b ^= b >> s` on a 32-bit word, for `3 * s ≥ 32`. -/
theorem unxorshift_xorshift (s x : Nat) (hx : x < 2 ^ 32) (hs : 32 ≤ 3 * s) :
    unxorshift s (x ^^^ (x >>> s)) = x := by
  apply Nat.eq_of_testBit_eq
  intro i
  simp only [unxorshift, Nat.testBit_xor, Nat.testBit_shiftRight]
  have e1 : s + (s + i) = 2 * s + i := by omega
  have e2 : x.testBit (s + (2 * s + i)) = false := testBit_high x _ hx (by omega)
  rw [e1, e2]
  cases x.testBit i <;> cases x.testBit (s + i) <;> cases x.testBit (2 * s + i) <;> rfl

theorem xorshift_unxorshift (s y : Nat) (hy : y < 2 ^ 32) (hs : 32 ≤ 3 * s) :
    unxorshift s y ^^^ (unxorshift s y >>> s) = y := by
  apply Nat.eq_of_testBit_eq
  intro i
  simp only [unxorshift, Nat.testBit_xor, Nat.testBit_shiftRight]
  have e1 : s + (s + i) = 2 * s + i := by omega
  have e2 : y.testBit (2 * s + (s + i)) = false := testBit_high y _ hy (by omega)
  rw [e1, e2]
  cases y.testBit i <;> cases y.testBit (s + i) <;> cases y.testBit (2 * s + i) <;> rfl

theorem splitmix32_unfold (b : Nat) :
    splitmix32 b =
      (fun b5 => b5 ^^^ (b5 >>> 16))
        (((fun b3 => b3 ^^^ (b3 >>> 13))
          (((fun b1 => b1 ^^^ (b1 >>> 15)) ((b + 0x9e3779b9) % 2 ^ 32)
            * 0x85ebca6b) % 2 ^ 32) * 0xc2b2ae3d) % 2 ^ 32) := rfl

theorem splitmix32Inv_lt (b : Nat) : splitmix32Inv b < 2 ^ 32 := Nat.mod_lt _ (by norm_num)

theorem splitmix32Inv_left (a : Nat) (ha : a < 2 ^ 32) : splitmix32Inv (splitmix32 a) = a := by
  have h1 : (a + 0x9e3779b9) % 2 ^ 32 < 2 ^ 32 := Nat.mod_lt _ (by norm_num)
  have h2 := xorshift_lt 15 _ h1
  generalize hb1 : (a + 0x9e3779b9) % 2 ^ 32 = b1 at h1 h2
  have h3 : (b1 ^^^ (b1 >>> 15)) * 0x85ebca6b % 2 ^ 32 < 2 ^ 32 := Nat.mod_lt _ (by norm_num)
  have h4 := xorshift_lt 13 _ h3
  have m1 := mul_inv_u32 0x85ebca6b 0xa5cb9243 _ (by decide) h2
  generalize hb3 : (b1 ^^^ (b1 >>> 15)) * 0x85ebca6b % 2 ^ 32 = b3 at h3 h4 m1
  have h5 : (b3 ^^^ (b3 >>> 13)) * 0xc2b2ae3d % 2 ^ 32 < 2 ^ 32 := Nat.mod_lt _ (by norm_num)
  have m2 := mul_inv_u32 0xc2b2ae3d 0xa89ed915 _ (by decide) h4
  generalize hb5 : (b3 ^^^ (b3 >>> 13)) * 0xc2b2ae3d % 2 ^ 32 = b5 at h5 m2
  have hs : splitmix32 a = b5 ^^^ (b5 >>> 16) := by
    rw [splitmix32_unfold]
    simp only [hb1, hb3, hb5]
  rw [hs]
  unfold splitmix32Inv
  simp only
  rw [unxorshift_xorshift 16 b5 h5 (by norm_num), m2,
    unxorshift_xorshift 13 b3 h3 (by norm_num), m1,
    unxorshift_xorshift 15 b1 h1 (by norm_num), ← hb1]
  omega

theorem splitmix32Inv_right (v : Nat) (hv : v < 2 ^ 32) : splitmix32 (splitmix32Inv v) = v := by
  have h1 := unxorshift_lt 16 v hv
  have x1 := xorshift_unxorshift 16 v hv (by norm_num)
  generalize hc5 : unxorshift 16 v = c5 at h1 x1
  have h2 : c5 * 0xa89ed915 % 2 ^ 32 < 2 ^ 32 := Nat.mod_lt _ (by norm_num)
  have m2 := mul_inv_u32 0xa89ed915 0xc2b2ae3d c5 (by decide) h1
  generalize hc4 : c5 * 0xa89ed915 % 2 ^ 32 = c4 at h2 m2
  have h3 := unxorshift_lt 13 c4 h2
  have x2 := xorshift_unxorshift 13 c4 h2 (by norm_num)
  generalize hc3 : unxorshift 13 c4 = c3 at h3 x2
  have h4 : c3 * 0xa5cb9243 % 2 ^ 32 < 2 ^ 32 := Nat.mod_lt _ (by norm_num)
  have m1 := mul_inv_u32 0xa5cb9243 0x85ebca6b c3 (by decide) h3
  generalize hc2 : c3 * 0xa5cb9243 % 2 ^ 32 = c2 at h4 m1
  have h5 := unxorshift_lt 15 c2 h4
  have x3 := xorshift_unxorshift 15 c2 h4 (by norm_num)
  generalize hc1 : unxorshift 15 c2 = c1 at h5 x3
  have hinv : splitmix32Inv v = (c1 + 0x61c88647) % 2 ^ 32 := by
    unfold splitmix32Inv
    simp only [hc5, hc4, hc3, hc2, hc1]
  have hadd : ((c1 + 0x61c88647) % 2 ^ 32 + 0x9e3779b9) % 2 ^ 32 = c1 := by omega
  rw [hinv, splitmix32_unfold]
  simp only [hadd, x3, m1, x2, m2, x1]

/-- C13: `splitmix32` is a bijection on 32-bit words: it is injective there, every 32-bit value
has a 32-bit preimage, and `splitmix32Inv` (which undoes the add, the xor-shifts by 15, 13 and
16 and the two multiplications by odd constants modulo `2 ^ 32`) is its inverse on both
sides. -/
theorem splitmix32_bijective :
    (∀ a b, a < 2 ^ 32 → b < 2 ^ 32 → splitmix32 a = splitmix32 b → a = b)
      ∧ (∀ v, v < 2 ^ 32 → ∃ a, a < 2 ^ 32 ∧ splitmix32 a = v)
      ∧ (∀ a, a < 2 ^ 32 → splitmix32 a < 2 ^ 32 ∧ splitmix32Inv a < 2 ^ 32
          ∧ splitmix32Inv (splitmix32 a) = a ∧ splitmix32 (splitmix32Inv a) = a) := by
  refine ⟨?_, ?_, ?_⟩
  · intro a b ha hb h
    rw [← splitmix32Inv_left a ha, ← splitmix32Inv_left b hb, h]
  · intro v hv
    exact ⟨splitmix32Inv v, splitmix32Inv_lt v, splitmix32Inv_right v hv⟩
  · intro a ha
    exact ⟨splitmix32_lt a, splitmix32Inv_lt a, splitmix32Inv_left a ha,
      splitmix32Inv_right a ha⟩

theorem splitmix32_bijective_witness :
    ∃ a, a < 2 ^ 32 ∧ splitmix32 a = 0 :=
  splitmix32_bijective.2.1 0 (by decide)


/-! ## Signed ranges -/

end RngEasy
